import Mathlib

/-!
Verification of the SetAccumulator component (velox/exec/SetAccumulator.h):
per-group deduplicating accumulators for set/array-distinct aggregation, in
three value categories (fixed-width scalar, string, complex/nested), with
ordinal bookkeeping, extraction into an output column, and a binary
serialize/deserialize codec used for spilling.

Machine integers: `vector_size_t` (int32) is modelled as `Int`, `size_t` as
`Nat`; the claims under study concern accumulator states whose ordinals stay
far below 2^31, where int32 arithmetic agrees with `Int`.
-/

namespace SetAgg

/-- Field width of a serialized vector_size_t (kSizeOfVector = sizeof(int32)). -/
def kSizeOfVector : Nat := 4

/-- Field width of a serialized size_t (kSizeOfSize = sizeof(size_t)). -/
def kSizeOfSize : Nat := 8

/-- Field width of a serialized uint64 hash (kSizeOfHash = sizeof(uint64_t)). -/
def kSizeOfHash : Nat := 8

/-- Sentinel written for "no null value" (SetAccumulator::kNoNullIndex = -1). -/
def kNoNullIndex : Int := -1

/-- F14FastMap modelled as an association list in insertion order; keys are
unique up to the map's equality predicate `eq`. `insert` is a no-op when an
equal key is present, otherwise it adds the pair; the Bool reports whether
insertion happened (the `.second` of the C++ insert result). -/
def mapInsert {α : Type} (eq : α → α → Bool) (m : List (α × Int)) (k : α) (v : Int) :
    List (α × Int) × Bool :=
  if m.any (fun p => eq p.1 k) then (m, false) else (m ++ [(k, v)], true)

/-- Single indexed write into a random-access buffer (one memcpy / one
FlatVector::set at a computed position). -/
def overwrite {α : Type} (d : Int → α) (pos : Int) (x : α) : Int → α :=
  fun q => if q = pos then x else d q

/-- Loop of indexed writes: one `overwrite` per list element, at position
`posOf p` with content `valOf p`, in list order. -/
def writeList {α β : Type} (posOf : β → Int) (valOf : β → α) (ps : List β) (d : Int → α) :
    Int → α :=
  ps.foldl (fun d p => overwrite d (posOf p) (valOf p)) d

/-- Cell of an output column: either a written value or a null mark (the two
effects of FlatVector::set / FlatVector::setNull). -/
inductive Cell (T : Type) where
  | val : T → Cell T
  | null : Cell T
deriving DecidableEq

/-! ## Scalar accumulator: SetAccumulator<T> -/

/-- SetAccumulator<T>: the optional null ordinal and the F14 map from values
to ordinals (insertion-ordered association list model). -/
structure SetAccumulator (T : Type) where
  nullIndex : Option Int
  uniqueValues : List (T × Int)

variable {T : Type}

/-- Equality predicate of the scalar map (std::equal_to<T>). -/
def scalarEq [DecidableEq T] : T → T → Bool := fun a b => decide (a = b)

/-- Freshly constructed accumulator: empty map, no null. -/
def SetAccumulator.empty (T : Type) : SetAccumulator T := ⟨none, []⟩

/-- SetAccumulator::addValue: record a null's first occurrence at the current
count, or insert a non-null value with ordinal count (+1 when a null slot is
already claimed); the map insert is a no-op on a duplicate. -/
def SetAccumulator.addValue [DecidableEq T] (acc : SetAccumulator T)
    (v : Option T) : SetAccumulator T :=
  let cnt : Int := acc.uniqueValues.length
  match v with
  | none =>
      if acc.nullIndex.isSome then acc else { acc with nullIndex := some cnt }
  | some x =>
      { acc with
        uniqueValues :=
          (mapInsert scalarEq acc.uniqueValues x
            (if acc.nullIndex.isSome then cnt + 1 else cnt)).1 }

/-- SetAccumulator::addValues: applies addValue to each element of the array
slice in order. -/
def SetAccumulator.addValues [DecidableEq T] (acc : SetAccumulator T)
    (vs : List (Option T)) : SetAccumulator T :=
  vs.foldl SetAccumulator.addValue acc

/-- SetAccumulator::size: number of unique values including null. -/
def SetAccumulator.size (acc : SetAccumulator T) : Nat :=
  acc.uniqueValues.length + (if acc.nullIndex.isSome then 1 else 0)

/-- SetAccumulator::extractValues: writes each value at destination[offset +
ordinal], marks the null position, returns the total count. -/
def SetAccumulator.extractValues (acc : SetAccumulator T)
    (dest : Int → Cell T) (offset : Int) : (Int → Cell T) × Nat :=
  let d1 := writeList (fun p => offset + p.2) (fun p => Cell.val p.1)
    acc.uniqueValues dest
  let d2 := match acc.nullIndex with
    | some j => overwrite d1 (offset + j) Cell.null
    | none => d1
  (d2, if acc.nullIndex.isSome then acc.uniqueValues.length + 1
       else acc.uniqueValues.length)

/-- SetAccumulator::nullIndexSerializationValue: the null ordinal, or the
kNoNullIndex sentinel. -/
def SetAccumulator.nullIndexSerializationValue (acc : SetAccumulator T) : Int :=
  match acc.nullIndex with
  | some j => j
  | none => kNoNullIndex

/-- Null position used by scalar serialize: nullIndex when set, else the
value count (an always-larger sentinel). -/
def SetAccumulator.nullPosition (acc : SetAccumulator T) : Int :=
  match acc.nullIndex with
  | some j => j
  | none => (acc.uniqueValues.length : Int)

/-- Slot position of a value ordinal in the scalar serialized layout: the
ordinal itself below the null position, else ordinal - 1. -/
def slotPos (nullPosition index : Int) : Int :=
  if index < nullPosition then index else index - 1

/-- Scalar serialized buffer: header fields, the fixed-width value slots
(slot k occupies bytes kSizeOfVector+kSizeOfSize+k*w ..), and the total byte
length of the published StringView. -/
structure ScalarBuf (T : Type) where
  nullField : Int
  countField : Nat
  slots : Int → Option T
  totalBytes : Nat

/-- SetAccumulator::serialize: writes [nullIndexOrSentinel][count] then each
value into slot slotPos(nullPosition, ordinal); the buffer length is
kSizeOfVector + kSizeOfSize + kSizeOfValue * count, with kSizeOfValue = w. -/
def SetAccumulator.serialize (acc : SetAccumulator T) (w : Nat) : ScalarBuf T :=
  { nullField := acc.nullIndexSerializationValue
    countField := acc.uniqueValues.length
    slots := writeList (fun p => slotPos acc.nullPosition p.2)
      (fun p => some p.1) acc.uniqueValues (fun _ => none)
    totalBytes := kSizeOfVector + kSizeOfSize + w * acc.uniqueValues.length }

/-- SetAccumulator::deserializeNullIndex: checks no null index is set yet
(VELOX_CHECK, modelled as `none` on failure), then adopts the read value
unless it is the sentinel. -/
def SetAccumulator.deserializeNullIndex (acc : SetAccumulator T)
    (streamNullIndex : Int) : Option (SetAccumulator T) :=
  if acc.nullIndex.isSome then none
  else if streamNullIndex = kNoNullIndex then some acc
  else some { acc with nullIndex := some streamNullIndex }

/-- SetAccumulator::isNullIndex: whether i is the recorded null ordinal. -/
def SetAccumulator.isNullIndex (acc : SetAccumulator T) (i : Int) : Bool :=
  match acc.nullIndex with
  | some j => decide (i = j)
  | none => false

/-- Value-reading loop of scalar deserialize: for the remaining `n` ordinals
starting at `i`, skip the null ordinal, otherwise read the next sequential
slot `k` and insert the value at ordinal `i`. Reading an unwritten slot
(a short buffer) fails. -/
def readValues [DecidableEq T] (slots : Int → Option T) :
    Nat → Int → Int → SetAccumulator T → Option (SetAccumulator T)
  | 0, _, _, acc => some acc
  | Nat.succ m, i, k, acc =>
    if acc.isNullIndex i then readValues slots m (i + 1) k acc
    else
      match slots k with
      | some x =>
          readValues slots m (i + 1) (k + 1)
            { acc with uniqueValues := (mapInsert scalarEq acc.uniqueValues x i).1 }
      | none => none

/-- SetAccumulator::deserialize: reads the null index and the count, then one
value per non-null ordinal 0..count+hasNull-1 from consecutive slots. -/
def SetAccumulator.deserialize [DecidableEq T] (acc : SetAccumulator T)
    (buf : ScalarBuf T) : Option (SetAccumulator T) := do
  let acc1 ← acc.deserializeNullIndex buf.nullField
  let numValues := buf.countField
  let numAllValues := if acc1.nullIndex.isSome then numValues + 1 else numValues
  readValues buf.slots numAllValues 0 0 acc1

/-- States reachable from a fresh scalar accumulator by addValue calls
(addValues is a fold of addValue). -/
inductive ReachS [DecidableEq T] : SetAccumulator T → Prop where
  | empty : ReachS (SetAccumulator.empty T)
  | add (a : SetAccumulator T) (v : Option T) : ReachS a → ReachS (a.addValue v)

/-- Ordinals held by the accumulator: the map's ordinals plus the null
ordinal when present. -/
def SetAccumulator.ordinals (acc : SetAccumulator T) : List Int :=
  acc.uniqueValues.map Prod.snd ++ acc.nullIndex.toList

/-- Ordinal completeness: the held ordinals are a permutation of
{0, ..., size-1}. -/
def OrdsOK (acc : SetAccumulator T) : Prop :=
  List.Perm acc.ordinals ((List.range acc.size).map Int.ofNat)

/-- Key uniqueness of the map. -/
def KeysOK (acc : SetAccumulator T) : Prop :=
  (acc.uniqueValues.map Prod.fst).Nodup

/-- Ordinal list together with its null entry. -/
def ordsList (o : List Int) (ni : Option Int) : List Int := o ++ ni.toList

/-- Total count of claimed ordinals. -/
def ordsTotal (o : List Int) (ni : Option Int) : Nat :=
  o.length + (if ni.isSome then 1 else 0)

/-- Ordinal completeness for a map-ordinal list and null index. -/
def OrdsC (o : List Int) (ni : Option Int) : Prop :=
  List.Perm (ordsList o ni) ((List.range (ordsTotal o ni)).map Int.ofNat)

/-- Combined well-formedness of a scalar accumulator. -/
def ScalarWF (acc : SetAccumulator T) : Prop :=
  OrdsC (acc.uniqueValues.map Prod.snd) acc.nullIndex ∧ KeysOK acc

/-- First value recorded at ordinal i (map lookup by ordinal). -/
def SetAccumulator.valueAt (acc : SetAccumulator T) (i : Int) : Option T :=
  (acc.uniqueValues.find? (fun p => decide (p.2 = i))).map Prod.fst

/-- Map pairs of the first m ordinals, listed in increasing ordinal order,
skipping the null ordinal. -/
def sortedPairs (acc : SetAccumulator T) (m : Nat) : List (T × Int) :=
  (List.range m).filterMap (fun (iN : Nat) =>
    if acc.nullIndex = some ((iN : Nat) : Int) then none
    else (acc.valueAt ((iN : Nat) : Int)).map (fun x => (x, ((iN : Nat) : Int))))

/-- Number of non-null ordinals below iN: the sequential slot counter of the
scalar deserialize loop when it is about to process ordinal iN. -/
def kAt (acc : SetAccumulator T) (iN : Nat) : Int :=
  match acc.nullIndex with
  | some j => if j < (iN : Int) then (iN : Int) - 1 else (iN : Int)
  | none => (iN : Int)

/-! ## Serialized byte streams

The string and complex codecs write typed fields sequentially through a byte
stream (OutputByteStream / InputByteStream). A serialized buffer is modelled
as the list of written fields, each knowing its byte width; byte offsets are
accumulated field widths. -/

/-- One serialized field: an int32 (vector_size_t), a size_t, a uint64 hash,
or a raw byte run. -/
inductive Tok where
  | i32 : Int → Tok
  | usize : Nat → Tok
  | u64 : Nat → Tok
  | raw : List Nat → Tok
deriving DecidableEq

/-- Byte width of a serialized field. -/
def tokSize : Tok → Nat
  | Tok.i32 _ => kSizeOfVector
  | Tok.usize _ => kSizeOfSize
  | Tok.u64 _ => kSizeOfHash
  | Tok.raw bs => bs.length

/-- Total byte length of a field list. -/
def bytesLen (ts : List Tok) : Nat := (ts.map tokSize).sum

/-! ## String accumulator: StringViewSetAccumulator -/

/-- Location of the bytes a non-inline StringView points at: the accumulator's
string store, or transient memory (an input buffer). -/
inductive SLoc where
  | store : Nat → SLoc
  | transient : SLoc
deriving DecidableEq

/-- StringView: strings up to kInlineSize bytes are stored inline in the view
itself; longer ones are a pointer to bytes living at some location (the
model's ref carries those bytes for content comparison). -/
inductive SView where
  | inl : List Nat → SView
  | ref : SLoc → List Nat → SView
deriving DecidableEq

/-- StringView::kInlineSize: strings of at most 12 bytes are inline. -/
def kInlineSize : Nat := 12

/-- StringView constructor from a byte run at a location: short strings
become inline copies, longer ones a reference. -/
def mkStringView (bs : List Nat) (loc : SLoc) : SView :=
  if bs.length ≤ kInlineSize then SView.inl bs else SView.ref loc bs

/-- Bytes a StringView denotes. -/
def SView.content : SView → List Nat
  | SView.inl bs => bs
  | SView.ref _ bs => bs

/-- StringView::isInline. -/
def SView.isInline : SView → Bool
  | SView.inl _ => true
  | SView.ref _ _ => false

/-- Equality of the string map (std::equal_to<StringView>: content
comparison). -/
def svEq (a b : SView) : Bool := decide (a.content = b.content)

/-- The arena-backed string store: the list of byte runs appended so far. -/
abbrev Strings := List (List Nat)

/-- Modelled from the spec: Strings::append (velox/exec/Strings.h, not under
src/) copies the bytes into arena storage and returns a stable view of the
copy. -/
def Strings.append (s : Strings) (bs : List Nat) : Strings × SView :=
  (s ++ [bs], mkStringView bs (SLoc.store s.length))

/-- StringViewSetAccumulator: the base map/null logic over StringView keys, a
string store owning non-inline bytes, and the running serialized-size
counter. -/
structure StringViewSetAccumulator where
  base : SetAccumulator SView
  strings : Strings
  stringSetBytes : Nat

/-- Freshly constructed string accumulator; stringSetBytes starts at the
width of the null-index and count header fields. -/
def StringViewSetAccumulator.empty : StringViewSetAccumulator :=
  ⟨SetAccumulator.empty SView, [], kSizeOfVector + kSizeOfSize⟩

/-- Core of StringViewSetAccumulator::addUniqueValue once the membership
check passed: copy a non-inline value into the string store, insert the
stable view at the given ordinal, and grow the byte accounting by index +
length fields plus the string bytes. -/
def insertUniqueValue (a : StringViewSetAccumulator) (value : SView)
    (index : Int) : StringViewSetAccumulator :=
  let step : Strings × SView :=
    if value.isInline then (a.strings, value)
    else a.strings.append value.content
  { base := { a.base with
      uniqueValues := a.base.uniqueValues ++ [(step.2, index)] }
    strings := step.1
    stringSetBytes :=
      a.stringSetBytes + 2 * kSizeOfVector + step.2.content.length }

/-- StringViewSetAccumulator::addUniqueValue: VELOX_CHECK that the value is
absent (abort otherwise, modelled as none), then insert it. -/
def addUniqueValue (a : StringViewSetAccumulator) (value : SView)
    (index : Int) : Option StringViewSetAccumulator :=
  if a.base.uniqueValues.any (fun p => svEq p.1 value) then none
  else some (insertUniqueValue a value index)

/-- Private StringViewSetAccumulator::addValue(StringView, index): no-op when
the content is already present, else insert. -/
def addValueView (a : StringViewSetAccumulator) (value : SView)
    (index : Int) : StringViewSetAccumulator :=
  if a.base.uniqueValues.any (fun p => svEq p.1 value) then a
  else insertUniqueValue a value index

/-- StringViewSetAccumulator::addValue: null-singularity on nulls; a non-null
decoded byte run arrives as a view of the (transient) input vector and is
inserted at ordinal count (+1 when a null slot is claimed). -/
def StringViewSetAccumulator.addValue (a : StringViewSetAccumulator)
    (v : Option (List Nat)) : StringViewSetAccumulator :=
  let cnt : Int := a.base.uniqueValues.length
  match v with
  | none =>
      if a.base.nullIndex.isSome then a
      else { a with base := { a.base with nullIndex := some cnt } }
  | some bs =>
      addValueView a (mkStringView bs SLoc.transient)
        (if a.base.nullIndex.isSome then cnt + 1 else cnt)

/-- StringViewSetAccumulator::addValues. -/
def StringViewSetAccumulator.addValues (a : StringViewSetAccumulator)
    (vs : List (Option (List Nat))) : StringViewSetAccumulator :=
  vs.foldl StringViewSetAccumulator.addValue a

/-- StringViewSetAccumulator::size. -/
def StringViewSetAccumulator.size (a : StringViewSetAccumulator) : Nat :=
  a.base.size

/-- StringViewSetAccumulator::serialize: [nullIndexOrSentinel][count] then,
per unique value in map order, [index][length][bytes]; the published
StringView length is the running stringSetBytes counter. -/
def StringViewSetAccumulator.serialize (a : StringViewSetAccumulator) :
    List Tok × Nat :=
  (Tok.i32 a.base.nullIndexSerializationValue ::
    Tok.usize a.base.uniqueValues.length ::
    (a.base.uniqueValues.map (fun p =>
      [Tok.i32 p.2, Tok.i32 (p.1.content.length : Int),
        Tok.raw p.1.content])).flatten,
    a.stringSetBytes)

/-- Tuple-reading loop of string deserialize: while the consumed offset is
below the buffer size, read [index][length][bytes] and addUniqueValue a view
of the input bytes (transient; addUniqueValue copies). -/
def strReadTuples (a : StringViewSetAccumulator) (toks : List Tok)
    (offset size : Nat) : Option StringViewSetAccumulator :=
  if offset < size then
    match toks with
    | Tok.i32 index :: Tok.i32 length :: Tok.raw bs :: rest =>
        if (bs.length : Int) = length then
          match addUniqueValue a (mkStringView bs SLoc.transient) index with
          | some a2 =>
              strReadTuples a2 rest
                (offset + kSizeOfVector + kSizeOfVector + bs.length) size
          | none => none
        else none
    | _ => none
  else some a

/-- StringViewSetAccumulator::deserialize: read the null index and declared
count, consume tuples until the buffer size is reached, then VELOX_CHECK_EQ
the declared count against the resulting map size. -/
def StringViewSetAccumulator.deserialize (a : StringViewSetAccumulator)
    (toks : List Tok) (size : Nat) : Option StringViewSetAccumulator :=
  match toks with
  | Tok.i32 nf :: Tok.usize numValues :: rest => do
      let base1 ← a.base.deserializeNullIndex nf
      let a2 ← strReadTuples { a with base := base1 } rest
        (kSizeOfVector + kSizeOfSize) size
      if numValues = a2.base.uniqueValues.length then some a2 else none
  | _ => none

/-- States reachable from a fresh string accumulator by addValue and
(successful) deserialize calls. -/
inductive ReachStr : StringViewSetAccumulator → Prop where
  | empty : ReachStr StringViewSetAccumulator.empty
  | add (a : StringViewSetAccumulator) (v : Option (List Nat)) :
      ReachStr a → ReachStr (a.addValue v)
  | deser (a a2 : StringViewSetAccumulator) (toks : List Tok) (size : Nat) :
      ReachStr a → a.deserialize toks size = some a2 → ReachStr a2

/-- A StringView key owned by the accumulator: inline, or a valid reference
into the accumulator's own string store — never into transient memory. -/
def StoredOK (strings : Strings) : SView → Prop
  | SView.inl _ => True
  | SView.ref (SLoc.store i) bs => i < strings.length ∧ strings.getD i [] = bs
  | SView.ref SLoc.transient _ => False

/-- Accounting well-formedness of a string accumulator: distinct contents,
exact byte accounting, and store-owned keys. Preserved by every operation,
deserialize of arbitrary data included. -/
def StrAcct (a : StringViewSetAccumulator) : Prop :=
  (a.base.uniqueValues.map (fun p => p.1.content)).Nodup ∧
  a.stringSetBytes = kSizeOfVector + kSizeOfSize +
    (a.base.uniqueValues.map
      (fun p => 2 * kSizeOfVector + p.1.content.length)).sum ∧
  ∀ p ∈ a.base.uniqueValues, StoredOK a.strings p.1

/-- Full well-formedness of a string accumulator: complete ordinals plus
accounting well-formedness. -/
def StrWF (a : StringViewSetAccumulator) : Prop :=
  OrdsC (a.base.uniqueValues.map Prod.snd) a.base.nullIndex ∧ StrAcct a

/-- States reachable from a fresh string accumulator by addValue alone
(addValues is a fold of addValue). -/
inductive ReachStrA : StringViewSetAccumulator → Prop where
  | empty : ReachStrA StringViewSetAccumulator.empty
  | add (a : StringViewSetAccumulator) (v : Option (List Nat)) :
      ReachStrA a → ReachStrA (a.addValue v)

/-! ## Complex accumulator: ComplexTypeSetAccumulator -/

/-- AddressableNonNullValueList::Entry: handle {position, size, hash} into
the content store (position modelled as the append index). -/
structure Entry where
  pos : Nat
  size : Nat
  hash : Nat
deriving DecidableEq

/-- The append-only content store of serialized complex values. -/
abbrev AddrStore := List (List Nat)

/-- Bytes referenced by an entry. -/
def entryBytes (store : AddrStore) (e : Entry) : List Nat :=
  store.getD e.pos []

/-- Equality of the complex map (AddressableNonNullValueList::EqualTo):
byte-wise comparison of the referenced bytes; the hash is only a digest and
a collision falls through to this comparison. -/
def eqEntry (store : AddrStore) (a b : Entry) : Bool :=
  decide (entryBytes store a = entryBytes store b)

/-- Modelled from the spec: AddressableNonNullValueList::append
(velox/exec/AddressableNonNullValueList.h, not under src/) serializes the
decoded value's bytes into the store and returns a handle {position, size,
hash}. The nested-value codec is external; its byte output is the model's
input. -/
def AddrStore.append (hashFn : List Nat → Nat) (store : AddrStore)
    (bs : List Nat) : AddrStore × Entry :=
  (store ++ [bs], ⟨store.length, bs.length, hashFn bs⟩)

/-- Modelled from the spec: AddressableNonNullValueList::appendSerialized
copies already-serialized bytes into the store and returns their position. -/
def AddrStore.appendSerialized (store : AddrStore) (bs : List Nat) :
    AddrStore × Nat :=
  (store ++ [bs], store.length)

/-- Modelled from the spec: AddressableNonNullValueList::removeLast removes
the most recently appended entry. -/
def AddrStore.removeLast (store : AddrStore) : AddrStore := store.dropLast

/-- ComplexTypeSetAccumulator: base map/null logic over entry handles, the
content store, and the running serialized-size counter. -/
structure ComplexTypeSetAccumulator where
  base : SetAccumulator Entry
  values : AddrStore
  totalSize : Nat

/-- Freshly constructed complex accumulator; totalSize starts at the width of
the null-index and count header fields. -/
def ComplexTypeSetAccumulator.empty : ComplexTypeSetAccumulator :=
  ⟨SetAccumulator.empty Entry, [], kSizeOfVector + kSizeOfSize⟩

/-- ComplexTypeSetAccumulator::addEntry: try to insert the handle; on a
duplicate, roll the just-appended bytes back out of the store; on success,
grow totalSize by index + length + hash fields plus the entry bytes. -/
def addEntry (a : ComplexTypeSetAccumulator) (entry : Entry) (index : Int) :
    ComplexTypeSetAccumulator :=
  let ins := mapInsert (eqEntry a.values) a.base.uniqueValues entry index
  if ins.2 then
    { a with
      base := { a.base with uniqueValues := ins.1 }
      totalSize :=
        a.totalSize + 2 * kSizeOfVector + kSizeOfHash + entry.size }
  else
    { a with values := a.values.removeLast }

/-- ComplexTypeSetAccumulator::addValue: null singularity on nulls; a
non-null value's bytes are unconditionally appended to the content store
first, then addEntry inserts (or rolls back) the handle at ordinal count
(+1 when a null slot is claimed). -/
def ComplexTypeSetAccumulator.addValue (hashFn : List Nat → Nat)
    (a : ComplexTypeSetAccumulator) (v : Option (List Nat)) :
    ComplexTypeSetAccumulator :=
  let cnt : Int := a.base.uniqueValues.length
  match v with
  | none =>
      if a.base.nullIndex.isSome then a
      else { a with base := { a.base with nullIndex := some cnt } }
  | some bs =>
      let step := AddrStore.append hashFn a.values bs
      let position := if a.base.nullIndex.isSome then cnt + 1 else cnt
      addEntry { a with values := step.1 } step.2 position

/-- ComplexTypeSetAccumulator::addValues. -/
def ComplexTypeSetAccumulator.addValues (hashFn : List Nat → Nat)
    (a : ComplexTypeSetAccumulator) (vs : List (Option (List Nat))) :
    ComplexTypeSetAccumulator :=
  vs.foldl (ComplexTypeSetAccumulator.addValue hashFn) a

/-- ComplexTypeSetAccumulator::size. -/
def ComplexTypeSetAccumulator.size (a : ComplexTypeSetAccumulator) : Nat :=
  a.base.size

/-- ComplexTypeSetAccumulator::extractValues: read each entry's bytes back
into destination[offset + ordinal], mark the null position, return the
count. -/
def ComplexTypeSetAccumulator.extractValues (a : ComplexTypeSetAccumulator)
    (dest : Int → Cell (List Nat)) (offset : Int) :
    (Int → Cell (List Nat)) × Nat :=
  let d1 := writeList (fun p => offset + p.2)
    (fun p => Cell.val (entryBytes a.values p.1)) a.base.uniqueValues dest
  let d2 := match a.base.nullIndex with
    | some j => overwrite d1 (offset + j) Cell.null
    | none => d1
  (d2, a.base.uniqueValues.length + (if a.base.nullIndex.isSome then 1 else 0))

/-- SerializationStream: bounded sequential writer used by complex serialize;
append VELOX_CHECKs that the write fits in the allocated buffer (abort
modelled as none). The two C++ append overloads both advance the offset by
the written width: a field's own width, or entry.size bytes for entry
content, which the model takes from the field (tokSize). -/
structure SerializationStream where
  toks : List Tok
  totalSize : Nat
  offset : Nat

/-- SerializationStream::append: bounds-check then write. -/
def SerializationStream.append (s : SerializationStream) (t : Tok) :
    Option SerializationStream :=
  if s.offset + tokSize t ≤ s.totalSize then
    some ⟨s.toks ++ [t], s.totalSize, s.offset + tokSize t⟩
  else none

/-- ComplexTypeSetAccumulator::serialize: header then, per unique value in
map order, [index][length][hash][bytes], all through the bounds-checked
stream into a buffer of totalSize bytes. -/
def ComplexTypeSetAccumulator.serialize (a : ComplexTypeSetAccumulator) :
    Option (List Tok × Nat) := do
  let s0 : SerializationStream := ⟨[], a.totalSize, 0⟩
  let s1 ← s0.append (Tok.i32 a.base.nullIndexSerializationValue)
  let s2 ← s1.append (Tok.usize a.base.uniqueValues.length)
  let sF ← a.base.uniqueValues.foldlM (fun s p => do
    let sa ← SerializationStream.append s (Tok.i32 p.2)
    let sb ← SerializationStream.append sa (Tok.i32 (p.1.size : Int))
    let sc ← SerializationStream.append sb (Tok.u64 p.1.hash)
    SerializationStream.append sc (Tok.raw (entryBytes a.values p.1))) s2
  pure (sF.toks, a.totalSize)

/-- Tuple-reading loop of complex deserialize: while the consumed offset is
below the buffer size, read [index][length][hash][bytes], append the bytes
to the content store and addEntry the handle at the recorded ordinal. -/
def cmplxReadTuples (a : ComplexTypeSetAccumulator) (toks : List Tok)
    (offset size : Nat) : Option ComplexTypeSetAccumulator :=
  if offset < size then
    match toks with
    | Tok.i32 index :: Tok.i32 length :: Tok.u64 hsh :: Tok.raw contents ::
        rest =>
        if (contents.length : Int) = length then
          let step := AddrStore.appendSerialized a.values contents
          cmplxReadTuples
            (addEntry { a with values := step.1 }
              ⟨step.2, contents.length, hsh⟩ index)
            rest
            (offset + kSizeOfVector + kSizeOfVector + kSizeOfHash +
              contents.length) size
        else none
    | _ => none
  else some a

/-- ComplexTypeSetAccumulator::deserialize: read the null index and declared
count, consume tuples until the buffer size is reached, then VELOX_CHECK_EQ
the declared count against the resulting map size. -/
def ComplexTypeSetAccumulator.deserialize (a : ComplexTypeSetAccumulator)
    (toks : List Tok) (size : Nat) : Option ComplexTypeSetAccumulator :=
  match toks with
  | Tok.i32 nf :: Tok.usize numValues :: rest => do
      let base1 ← a.base.deserializeNullIndex nf
      let a2 ← cmplxReadTuples { a with base := base1 } rest
        (kSizeOfVector + kSizeOfSize) size
      if numValues = a2.base.uniqueValues.length then some a2 else none
  | _ => none

/-- States reachable from a fresh complex accumulator by addValue and
(successful) deserialize calls. -/
inductive ReachC (hashFn : List Nat → Nat) :
    ComplexTypeSetAccumulator → Prop where
  | empty : ReachC hashFn ComplexTypeSetAccumulator.empty
  | add (a : ComplexTypeSetAccumulator) (v : Option (List Nat)) :
      ReachC hashFn a → ReachC hashFn (a.addValue hashFn v)
  | deser (a a2 : ComplexTypeSetAccumulator) (toks : List Tok) (size : Nat) :
      ReachC hashFn a → a.deserialize toks size = some a2 → ReachC hashFn a2

/-- Accounting well-formedness of a complex accumulator: distinct entry
contents, exact byte accounting, and valid in-bounds handles. Preserved by
every operation, deserialize of arbitrary data included. -/
def CAcct (a : ComplexTypeSetAccumulator) : Prop :=
  (a.base.uniqueValues.map (fun p => entryBytes a.values p.1)).Nodup ∧
  a.totalSize = kSizeOfVector + kSizeOfSize +
    (a.base.uniqueValues.map
      (fun p => 2 * kSizeOfVector + kSizeOfHash + p.1.size)).sum ∧
  ∀ p ∈ a.base.uniqueValues, p.1.pos < a.values.length ∧
    (a.values.getD p.1.pos []).length = p.1.size

/-- Full well-formedness of a complex accumulator: complete ordinals plus
accounting well-formedness. -/
def CWF (a : ComplexTypeSetAccumulator) : Prop :=
  OrdsC (a.base.uniqueValues.map Prod.snd) a.base.nullIndex ∧ CAcct a

/-- States reachable from a fresh complex accumulator by addValue alone
(addValues is a fold of addValue). -/
inductive ReachCA (hashFn : List Nat → Nat) :
    ComplexTypeSetAccumulator → Prop where
  | empty : ReachCA hashFn ComplexTypeSetAccumulator.empty
  | add (a : ComplexTypeSetAccumulator) (v : Option (List Nat)) :
      ReachCA hashFn a → ReachCA hashFn (a.addValue hashFn v)

/-- Contents of the string map in order: (bytes, ordinal) pairs. -/
def contentPairs (a : StringViewSetAccumulator) : List (List Nat × Int) :=
  a.base.uniqueValues.map (fun p => (p.1.content, p.2))

/-- Token run of a sequence of string tuples (ordinal, bytes):
[index][length][bytes] each. -/
def tupleToks (ts : List (Int × List Nat)) : List Tok :=
  (ts.map (fun t =>
    [Tok.i32 t.1, Tok.i32 (t.2.length : Int), Tok.raw t.2])).flatten

/-- Byte length of a sequence of string tuples. -/
def tupleBytes (ts : List (Int × List Nat)) : Nat :=
  (ts.map (fun t => 2 * kSizeOfVector + t.2.length)).sum

/-- Fold of insertUniqueValue over decoded tuples, as performed by the string
deserialize loop (each decoded byte run arrives as a transient view). -/
def insertAll (aP : StringViewSetAccumulator) (ts : List (Int × List Nat)) :
    StringViewSetAccumulator :=
  ts.foldl (fun a t =>
    insertUniqueValue a (mkStringView t.2 SLoc.transient) t.1) aP

/-- Contents of the complex map in order: (bytes, ordinal) pairs. -/
def centryPairs (a : ComplexTypeSetAccumulator) : List (List Nat × Int) :=
  a.base.uniqueValues.map (fun p => (entryBytes a.values p.1, p.2))

/-- Token run of a sequence of complex tuples (ordinal, hash, bytes):
[index][length][hash][bytes] each. -/
def ctupleToks (ts : List (Int × Nat × List Nat)) : List Tok :=
  (ts.map (fun t =>
    [Tok.i32 t.1, Tok.i32 (t.2.2.length : Int), Tok.u64 t.2.1,
      Tok.raw t.2.2])).flatten

/-- Byte length of a sequence of complex tuples. -/
def ctupleBytes (ts : List (Int × Nat × List Nat)) : Nat :=
  (ts.map (fun t =>
    2 * kSizeOfVector + kSizeOfHash + t.2.2.length)).sum

/-- Fold of appendSerialized-plus-addEntry over decoded tuples, as performed
by the complex deserialize loop. -/
def cInsertAll (aP : ComplexTypeSetAccumulator)
    (ts : List (Int × Nat × List Nat)) : ComplexTypeSetAccumulator :=
  ts.foldl (fun a t =>
    addEntry { a with values := (AddrStore.appendSerialized a.values t.2.2).1 }
      ⟨(AddrStore.appendSerialized a.values t.2.2).2, t.2.2.length, t.2.1⟩
      t.1) aP

/-! ## Generic lemmas about indexed writes and map insertion -/

theorem overwrite_same {α : Type} (d : Int → α) (pos : Int) (x : α) :
    overwrite d pos x pos = x := by
  simp [overwrite]

theorem overwrite_other {α : Type} (d : Int → α) (pos q : Int) (x : α)
    (h : q ≠ pos) : overwrite d pos x q = d q := by
  simp [overwrite, h]

theorem bind_some_reduce {α β : Type} (x : α) (k : α → Option β) :
    (some x >>= k) = k x := rfl

theorem writeList_notmem {α β : Type} (posOf : β → Int) (valOf : β → α)
    (ps : List β) (d : Int → α) (q : Int) (h : q ∉ ps.map posOf) :
    writeList posOf valOf ps d q = d q := by
  induction ps generalizing d with
  | nil => rfl
  | cons p rest ih =>
      simp only [List.map_cons, List.mem_cons, not_or] at h
      simp only [writeList, List.foldl_cons]
      rw [show (rest.foldl (fun d p => overwrite d (posOf p) (valOf p))
        (overwrite d (posOf p) (valOf p))) =
        writeList posOf valOf rest (overwrite d (posOf p) (valOf p)) from rfl]
      rw [ih _ h.2, overwrite_other _ _ _ _ h.1]

theorem writeList_mem {α β : Type} (posOf : β → Int) (valOf : β → α)
    (ps : List β) (d : Int → α) (p : β) (hmem : p ∈ ps)
    (hnd : (ps.map posOf).Nodup) :
    writeList posOf valOf ps d (posOf p) = valOf p := by
  induction ps generalizing d with
  | nil => cases hmem
  | cons p0 rest ih =>
      simp only [List.map_cons, List.nodup_cons] at hnd
      simp only [writeList, List.foldl_cons]
      rw [show (rest.foldl (fun d p => overwrite d (posOf p) (valOf p))
        (overwrite d (posOf p0) (valOf p0))) =
        writeList posOf valOf rest (overwrite d (posOf p0) (valOf p0)) from rfl]
      rcases List.mem_cons.1 hmem with h0 | hrest
      · subst h0
        rw [writeList_notmem _ _ _ _ _ hnd.1, overwrite_same]
      · exact ih (overwrite d (posOf p0) (valOf p0)) hrest hnd.2

theorem mapInsert_dup {α : Type} (eq : α → α → Bool) (m : List (α × Int))
    (k : α) (v : Int) (h : ∃ p ∈ m, eq p.1 k) :
    mapInsert eq m k v = (m, false) := by
  have : m.any (fun p => eq p.1 k) = true := List.any_eq_true.2 (by
    obtain ⟨p, hp, he⟩ := h; exact ⟨p, hp, he⟩)
  simp [mapInsert, this]

theorem mapInsert_new {α : Type} (eq : α → α → Bool) (m : List (α × Int))
    (k : α) (v : Int) (h : ∀ p ∈ m, ¬ eq p.1 k) :
    mapInsert eq m k v = (m ++ [(k, v)], true) := by
  have : m.any (fun p => eq p.1 k) = false := by
    rw [← Bool.not_eq_true, List.any_eq_true]
    rintro ⟨p, hp, he⟩; exact h p hp he
  simp [mapInsert, this]

/-- In a list of pairs with nodup first components, the first component
determines the pair. -/
theorem fst_inj_of_nodup {α : Type} {l : List (α × Int)}
    (h : (l.map Prod.fst).Nodup) {p q : α × Int} (hp : p ∈ l) (hq : q ∈ l)
    (he : p.1 = q.1) : p = q := by
  have := List.inj_on_of_nodup_map h
  have h2 : p = q := this hp hq he
  exact h2

/-- In a list of pairs with nodup second components, the second component
determines the pair. -/
theorem snd_inj_of_nodup {α : Type} {l : List (α × Int)}
    (h : (l.map Prod.snd).Nodup) {p q : α × Int} (hp : p ∈ l) (hq : q ∈ l)
    (he : p.2 = q.2) : p = q := by
  have := List.inj_on_of_nodup_map h
  exact this hp hq he

/-! ## Abstract ordinal-completeness bookkeeping

The ordinal/null bookkeeping is identical across the three accumulator
categories; these lemmas capture how a single addValue step transforms the
held ordinals. `o` is the map's ordinal list, `ni` the null index. -/

theorem ordsC_nil : OrdsC [] none := by
  simp [OrdsC, ordsList, ordsTotal]

theorem ordsC_addNull {o : List Int} (h : OrdsC o none) :
    OrdsC o (some (o.length : Int)) := by
  have h' : List.Perm o ((List.range o.length).map Int.ofNat) := by
    simpa [OrdsC, ordsList, ordsTotal] using h
  show List.Perm (o ++ [(o.length : Int)])
    ((List.range (o.length + 1)).map Int.ofNat)
  rw [List.range_succ, List.map_append]
  exact h'.append (List.Perm.refl _)

theorem ordsC_addVal {o : List Int} {ni : Option Int} (h : OrdsC o ni) :
    OrdsC (o ++ [((ordsTotal o ni : Nat) : Int)]) ni := by
  have h' : List.Perm (o ++ ni.toList)
      ((List.range (ordsTotal o ni)).map Int.ofNat) := h
  have hstep : List.Perm ((o ++ [((ordsTotal o ni : Nat) : Int)]) ++ ni.toList)
      ((o ++ ni.toList) ++ [((ordsTotal o ni : Nat) : Int)]) := by
    rw [List.append_assoc, List.append_assoc]
    exact (List.Perm.refl o).append List.perm_append_comm
  have hfin : List.Perm ((o ++ [((ordsTotal o ni : Nat) : Int)]) ++ ni.toList)
      (((List.range (ordsTotal o ni)).map Int.ofNat) ++
        [((ordsTotal o ni : Nat) : Int)]) :=
    hstep.trans (h'.append (List.Perm.refl _))
  have htot : ordsTotal (o ++ [((ordsTotal o ni : Nat) : Int)]) ni =
      ordsTotal o ni + 1 := by
    simp only [ordsTotal, List.length_append, List.length_cons,
      List.length_nil]
    omega
  show List.Perm ((o ++ [((ordsTotal o ni : Nat) : Int)]) ++ ni.toList)
    ((List.range (ordsTotal (o ++ [((ordsTotal o ni : Nat) : Int)]) ni)).map
      Int.ofNat)
  rw [htot, List.range_succ, List.map_append]
  exact hfin

/-! ## Scalar addValue case equations and the reachability invariant -/

theorem addValue_null_first [DecidableEq T] (acc : SetAccumulator T)
    (h : acc.nullIndex = none) :
    acc.addValue none =
      { acc with nullIndex := some (acc.uniqueValues.length : Int) } := by
  simp [SetAccumulator.addValue, h]

theorem addValue_null_again [DecidableEq T] (acc : SetAccumulator T)
    (h : acc.nullIndex.isSome) : acc.addValue none = acc := by
  simp [SetAccumulator.addValue, h]

theorem addValue_dup [DecidableEq T] (acc : SetAccumulator T) (x : T)
    (h : ∃ p ∈ acc.uniqueValues, p.1 = x) : acc.addValue (some x) = acc := by
  have hd : ∃ p ∈ acc.uniqueValues, scalarEq p.1 x := by
    obtain ⟨p, hp, he⟩ := h
    exact ⟨p, hp, by simp [scalarEq, he]⟩
  simp [SetAccumulator.addValue, mapInsert_dup _ _ _ _ hd]

theorem addValue_new [DecidableEq T] (acc : SetAccumulator T) (x : T)
    (h : ∀ p ∈ acc.uniqueValues, p.1 ≠ x) :
    acc.addValue (some x) =
      { acc with uniqueValues := acc.uniqueValues ++
          [(x, if acc.nullIndex.isSome then (acc.uniqueValues.length : Int) + 1
               else (acc.uniqueValues.length : Int))] } := by
  have hn : ∀ p ∈ acc.uniqueValues, ¬ scalarEq p.1 x := by
    intro p hp
    simp [scalarEq]
    exact h p hp
  simp [SetAccumulator.addValue, mapInsert_new _ _ _ _ hn]

theorem scalarWF_size (acc : SetAccumulator T) :
    ordsTotal (acc.uniqueValues.map Prod.snd) acc.nullIndex = acc.size := by
  simp [ordsTotal, SetAccumulator.size]

/-- Every reachable scalar accumulator is well formed: its ordinals are a
permutation of {0..size-1} and its keys are unique. -/
theorem scalar_wf [DecidableEq T] (acc : SetAccumulator T) (h : ReachS acc) :
    ScalarWF acc := by
  induction h with
  | empty => exact ⟨ordsC_nil, List.nodup_nil⟩
  | add a v _ ih =>
      obtain ⟨ho, hk⟩ := ih
      match v with
      | none =>
          cases hni : a.nullIndex with
          | some j => rw [addValue_null_again a (by simp [hni])]; exact ⟨ho, hk⟩
          | none =>
              rw [addValue_null_first a hni]
              refine ⟨?_, hk⟩
              rw [hni] at ho
              have := ordsC_addNull ho
              simpa using this
      | some x =>
          by_cases hdup : ∃ p ∈ a.uniqueValues, p.1 = x
          · rw [addValue_dup a x hdup]; exact ⟨ho, hk⟩
          · push_neg at hdup
            rw [addValue_new a x hdup]
            constructor
            · have := ordsC_addVal ho
              simp only [List.map_append, List.map_cons, List.map_nil] at this ⊢
              have hc : ((ordsTotal (a.uniqueValues.map Prod.snd)
                  a.nullIndex : Nat) : Int) =
                  (if a.nullIndex.isSome then
                    (a.uniqueValues.length : Int) + 1
                  else (a.uniqueValues.length : Int)) := by
                simp only [ordsTotal, List.length_map]
                cases a.nullIndex <;> simp
              rwa [hc] at this
            · simp only [KeysOK, List.map_append, List.map_cons, List.map_nil]
              rw [List.nodup_append]
              refine ⟨hk, List.nodup_singleton x, ?_⟩
              intro y hy
              simp only [List.mem_singleton]
              obtain ⟨p, hp, hpy⟩ := List.mem_map.1 hy
              intro he
              exact hdup p hp (by rw [hpy, he])

/-! ## Consequences of well-formedness -/

theorem wf_ords_nodup (acc : SetAccumulator T) (hw : ScalarWF acc) :
    (acc.uniqueValues.map Prod.snd ++ acc.nullIndex.toList).Nodup := by
  have hperm := hw.1
  have hnd : ((List.range (ordsTotal (acc.uniqueValues.map Prod.snd)
      acc.nullIndex)).map Int.ofNat).Nodup :=
    List.Nodup.map (fun a b h => Int.ofNat.inj h) (List.nodup_range _)
  exact hperm.nodup_iff.2 hnd

theorem wf_snds_nodup (acc : SetAccumulator T) (hw : ScalarWF acc) :
    (acc.uniqueValues.map Prod.snd).Nodup :=
  ((List.nodup_append.1 (wf_ords_nodup acc hw)).1)

theorem wf_null_notin_snds (acc : SetAccumulator T) (hw : ScalarWF acc)
    (j : Int) (hj : acc.nullIndex = some j) :
    j ∉ acc.uniqueValues.map Prod.snd := by
  have hnd := wf_ords_nodup acc hw
  rw [List.nodup_append] at hnd
  intro hmem
  exact hnd.2.2 hmem (by simp [hj])

theorem wf_mem_ords_iff (acc : SetAccumulator T) (hw : ScalarWF acc)
    (v : Int) :
    v ∈ acc.uniqueValues.map Prod.snd ++ acc.nullIndex.toList ↔
      ∃ iN : Nat, iN < acc.size ∧ v = (iN : Int) := by
  have hmi : v ∈ List.map Prod.snd acc.uniqueValues ++ acc.nullIndex.toList ↔
      v ∈ (List.range (ordsTotal (acc.uniqueValues.map Prod.snd)
        acc.nullIndex)).map Int.ofNat := hw.1.mem_iff
  rw [hmi]
  constructor
  · intro h
    obtain ⟨iN, hiN, he⟩ := List.mem_map.1 h
    exact ⟨iN, by rwa [scalarWF_size, List.mem_range] at hiN, he.symm⟩
  · rintro ⟨iN, hiN, rfl⟩
    refine List.mem_map.2 ⟨iN, ?_, rfl⟩
    rw [List.mem_range, scalarWF_size]
    exact hiN

theorem wf_ord_bounds (acc : SetAccumulator T) (hw : ScalarWF acc)
    (x : T) (i : Int) (h : (x, i) ∈ acc.uniqueValues) :
    0 ≤ i ∧ i < (acc.size : Int) ∧ acc.nullIndex ≠ some i := by
  have hm : i ∈ acc.uniqueValues.map Prod.snd :=
    List.mem_map.2 ⟨(x, i), h, rfl⟩
  have := (wf_mem_ords_iff acc hw i).1 (List.mem_append.2 (Or.inl hm))
  obtain ⟨iN, hiN, rfl⟩ := this
  refine ⟨by positivity, by exact_mod_cast hiN, ?_⟩
  intro hj
  exact wf_null_notin_snds acc hw _ hj hm

theorem wf_null_bounds (acc : SetAccumulator T) (hw : ScalarWF acc)
    (j : Int) (hj : acc.nullIndex = some j) :
    0 ≤ j ∧ j < (acc.size : Int) := by
  have hm : j ∈ acc.uniqueValues.map Prod.snd ++ acc.nullIndex.toList :=
    List.mem_append.2 (Or.inr (by simp [hj]))
  obtain ⟨iN, hiN, rfl⟩ := (wf_mem_ords_iff acc hw j).1 hm
  exact ⟨by positivity, by exact_mod_cast hiN⟩

theorem wf_exists_pair (acc : SetAccumulator T) (hw : ScalarWF acc)
    (i : Int) (h0 : 0 ≤ i) (hs : i < (acc.size : Int))
    (hnj : acc.nullIndex ≠ some i) : ∃ x, (x, i) ∈ acc.uniqueValues := by
  have hm : i ∈ acc.uniqueValues.map Prod.snd ++ acc.nullIndex.toList := by
    apply (wf_mem_ords_iff acc hw i).2
    exact ⟨i.toNat, by omega, by omega⟩
  rcases List.mem_append.1 hm with hin | hnull
  · obtain ⟨p, hp, he⟩ := List.mem_map.1 hin
    exact ⟨p.1, by rwa [show (p.1, i) = p by rw [← he]]⟩
  · exfalso
    cases hni : acc.nullIndex with
    | none => rw [hni] at hnull; simp at hnull
    | some j =>
        rw [hni] at hnull
        simp at hnull
        exact hnj (by rw [hni, hnull])

/-- slotPos is injective on the map ordinals of a well-formed accumulator. -/
theorem wf_slotPos_nodup (acc : SetAccumulator T) (hw : ScalarWF acc) :
    (acc.uniqueValues.map (fun p => slotPos acc.nullPosition p.2)).Nodup := by
  have heq : acc.uniqueValues.map (fun p => slotPos acc.nullPosition p.2) =
      (acc.uniqueValues.map Prod.snd).map (slotPos acc.nullPosition) := by
    rw [List.map_map]; rfl
  rw [heq]
  apply List.Nodup.map_on ?_ (wf_snds_nodup acc hw)
  intro a ha b hb he
  obtain ⟨p, hp, hpe⟩ := List.mem_map.1 ha
  obtain ⟨q, hq, hqe⟩ := List.mem_map.1 hb
  have hpb := wf_ord_bounds acc hw p.1 p.2 (by rwa [show (p.1, p.2) = p from rfl])
  have hqb := wf_ord_bounds acc hw q.1 q.2 (by rwa [show (q.1, q.2) = q from rfl])
  rw [hpe] at hpb; rw [hqe] at hqb
  cases hni : acc.nullIndex with
  | none =>
      simp only [SetAccumulator.nullPosition, hni, slotPos] at he
      rw [hni] at hpb hqb
      simp only [SetAccumulator.size, hni] at hpb hqb
      simp only [Option.isSome_none, Bool.false_eq_true, if_false,
        Nat.add_zero] at hpb hqb
      split_ifs at he <;> omega
  | some j =>
      have hja : a ≠ j := by
        rw [hni] at hpb
        intro hc; exact hpb.2.2 (by rw [hc])
      have hjb : b ≠ j := by
        rw [hni] at hqb
        intro hc; exact hqb.2.2 (by rw [hc])
      simp only [SetAccumulator.nullPosition, hni, slotPos] at he
      split_ifs at he <;> omega

/-! ## Scalar serialize characterization -/

theorem serialize_header (acc : SetAccumulator T) (w : Nat) :
    (acc.serialize w).nullField = acc.nullIndexSerializationValue ∧
    (acc.serialize w).countField = acc.uniqueValues.length ∧
    (acc.serialize w).totalBytes =
      kSizeOfVector + kSizeOfSize + w * acc.uniqueValues.length :=
  ⟨rfl, rfl, rfl⟩

theorem serialize_slot_mem (acc : SetAccumulator T) (hw : ScalarWF acc)
    (w : Nat) (x : T) (v : Int) (h : (x, v) ∈ acc.uniqueValues) :
    (acc.serialize w).slots (slotPos acc.nullPosition v) = some x := by
  show writeList (fun p => slotPos acc.nullPosition p.2) (fun p => some p.1)
    acc.uniqueValues (fun _ => none) (slotPos acc.nullPosition v) = some x
  have := writeList_mem (fun p => slotPos acc.nullPosition p.2)
    (fun p => some p.1) acc.uniqueValues (fun _ => none) (x, v) h
    (wf_slotPos_nodup acc hw)
  exact this

theorem serialize_slot_unwritten (acc : SetAccumulator T) (w : Nat) (q : Int)
    (h : q ∉ acc.uniqueValues.map (fun p => slotPos acc.nullPosition p.2)) :
    (acc.serialize w).slots q = none := by
  show writeList (fun p => slotPos acc.nullPosition p.2) (fun p => some p.1)
    acc.uniqueValues (fun _ => none) q = none
  rw [writeList_notmem _ _ _ _ _ h]

/-- The scalar value slots are exactly 0..count-1: no gap is left for the
null ordinal. -/
theorem serialize_slot_coverage (acc : SetAccumulator T) (hw : ScalarWF acc)
    (w : Nat) (q : Int) :
    ((acc.serialize w).slots q).isSome ↔
      0 ≤ q ∧ q < (acc.uniqueValues.length : Int) := by
  constructor
  · intro hs
    by_cases hmem : q ∈ acc.uniqueValues.map
        (fun p => slotPos acc.nullPosition p.2)
    · obtain ⟨p, hp, hpe⟩ := List.mem_map.1 hmem
      have hb := wf_ord_bounds acc hw p.1 p.2 (by
        rwa [show (p.1, p.2) = p from rfl])
      cases hni : acc.nullIndex with
      | none =>
          rw [hni] at hb
          simp only [SetAccumulator.size, hni, Option.isSome_none,
            Bool.false_eq_true, if_false, Nat.add_zero] at hb
          subst hpe
          simp only [SetAccumulator.nullPosition, hni, slotPos]
          split_ifs <;> omega
      | some j =>
          rw [hni] at hb
          have hjb := wf_null_bounds acc hw j hni
          have hjne : p.2 ≠ j := fun hc => hb.2.2 (by rw [hc])
          simp only [SetAccumulator.size, hni, Option.isSome_some, if_true] at hb hjb
          subst hpe
          simp only [SetAccumulator.nullPosition, hni, slotPos]
          split_ifs <;> push_cast at hb hjb ⊢ <;> omega
    · rw [serialize_slot_unwritten acc w q hmem] at hs
      cases hs
  · rintro ⟨h0, hn⟩
    cases hni : acc.nullIndex with
    | none =>
        have hsz : (acc.size : Int) = acc.uniqueValues.length := by
          simp [SetAccumulator.size, hni]
        obtain ⟨x, hx⟩ := wf_exists_pair acc hw q h0 (by omega)
          (by rw [hni]; exact fun hc => Option.noConfusion hc)
        have hsl : slotPos acc.nullPosition q = q := by
          simp only [SetAccumulator.nullPosition, hni, slotPos]
          rw [if_pos hn]
        rw [← hsl, serialize_slot_mem acc hw w x q hx]
        rfl
    | some j =>
        have hjb := wf_null_bounds acc hw j hni
        have hsz : (acc.size : Int) = (acc.uniqueValues.length : Int) + 1 := by
          simp [SetAccumulator.size, hni]
        set v : Int := if q < j then q else q + 1 with hv
        have hvne : acc.nullIndex ≠ some v := by
          rw [hni]
          intro hc
          have : j = v := Option.some.inj hc
          rw [hv] at this
          split_ifs at this <;> omega
        have hvb : 0 ≤ v ∧ v < (acc.size : Int) := by
          rw [hv]; split_ifs <;> omega
        obtain ⟨x, hx⟩ := wf_exists_pair acc hw v hvb.1 hvb.2 hvne
        have hsl : slotPos acc.nullPosition v = q := by
          simp only [SetAccumulator.nullPosition, hni, slotPos]
          rw [hv]
          split_ifs <;> omega
        rw [← hsl, serialize_slot_mem acc hw w x v hx]
        rfl

/-! ## Extract characterization -/

theorem extract_ret (acc : SetAccumulator T) (dest : Int → Cell T)
    (offset : Int) : (acc.extractValues dest offset).2 = acc.size := by
  cases hni : acc.nullIndex <;>
    simp [SetAccumulator.extractValues, SetAccumulator.size, hni]

theorem extract_pos_nodup (acc : SetAccumulator T) (hw : ScalarWF acc)
    (offset : Int) :
    (acc.uniqueValues.map (fun p => offset + p.2)).Nodup := by
  have heq : acc.uniqueValues.map (fun p => offset + p.2) =
      (acc.uniqueValues.map Prod.snd).map (fun v => offset + v) := by
    rw [List.map_map]; rfl
  rw [heq]
  exact List.Nodup.map (fun a b h => by omega) (wf_snds_nodup acc hw)

theorem extract_val (acc : SetAccumulator T) (hw : ScalarWF acc)
    (dest : Int → Cell T) (offset : Int) (x : T) (i : Int)
    (h : (x, i) ∈ acc.uniqueValues) :
    (acc.extractValues dest offset).1 (offset + i) = Cell.val x := by
  have hb := wf_ord_bounds acc hw x i h
  have hd1 : writeList (fun p => offset + p.2) (fun p => Cell.val p.1)
      acc.uniqueValues dest (offset + i) = Cell.val x :=
    writeList_mem _ _ _ _ (x, i) h (extract_pos_nodup acc hw offset)
  cases hni : acc.nullIndex with
  | none => simp only [SetAccumulator.extractValues, hni]; exact hd1
  | some j =>
      have hij : i ≠ j := fun hc => hb.2.2 (by rw [hni, hc])
      simp only [SetAccumulator.extractValues, hni]
      rw [overwrite_other _ _ _ _ (by omega)]
      exact hd1

theorem extract_null (acc : SetAccumulator T) (dest : Int → Cell T)
    (offset : Int) (j : Int) (hj : acc.nullIndex = some j) :
    (acc.extractValues dest offset).1 (offset + j) = Cell.null := by
  simp only [SetAccumulator.extractValues, hj]
  exact overwrite_same _ _ _

theorem extract_outside (acc : SetAccumulator T) (dest : Int → Cell T)
    (offset : Int) (i : Int) (hnm : ∀ x : T, (x, i) ∉ acc.uniqueValues)
    (hnull : acc.nullIndex ≠ some i) :
    (acc.extractValues dest offset).1 (offset + i) = dest (offset + i) := by
  have hpos : offset + i ∉ acc.uniqueValues.map (fun p => offset + p.2) := by
    intro hmem
    obtain ⟨p, hp, hpe⟩ := List.mem_map.1 hmem
    have : p.2 = i := by omega
    exact hnm p.1 (by rw [← this]; exact hp)
  have hd1 : writeList (fun p => offset + p.2) (fun p => Cell.val p.1)
      acc.uniqueValues dest (offset + i) = dest (offset + i) :=
    writeList_notmem _ _ _ _ _ hpos
  cases hni : acc.nullIndex with
  | none => simp only [SetAccumulator.extractValues, hni]; exact hd1
  | some j =>
      have hij : i ≠ j := fun hc => hnull (by rw [hni, hc])
      simp only [SetAccumulator.extractValues, hni]
      rw [overwrite_other _ _ _ _ (by omega)]
      exact hd1

/-- In the extracted window, a cell is null exactly at the accepted null
ordinal. -/
theorem extract_null_iff (acc : SetAccumulator T) (hw : ScalarWF acc)
    (dest : Int → Cell T) (offset : Int) (i : Int) (h0 : 0 ≤ i)
    (hs : i < (acc.size : Int)) :
    (acc.extractValues dest offset).1 (offset + i) = Cell.null ↔
      acc.nullIndex = some i := by
  constructor
  · intro hc
    by_contra hne
    obtain ⟨x, hx⟩ := wf_exists_pair acc hw i h0 hs hne
    rw [extract_val acc hw dest offset x i hx] at hc
    cases hc
  · intro hj
    exact extract_null acc dest offset i hj

/-! ## Ordinal lookup and the sorted pair list -/

theorem valueAt_of_mem (acc : SetAccumulator T)
    (hnd : (acc.uniqueValues.map Prod.snd).Nodup) (x : T) (i : Int)
    (h : (x, i) ∈ acc.uniqueValues) : acc.valueAt i = some x := by
  unfold SetAccumulator.valueAt
  cases hfind : acc.uniqueValues.find? (fun p => decide (p.2 = i)) with
  | none =>
      exfalso
      have := List.find?_eq_none.1 hfind (x, i) h
      simp at this
  | some q =>
      have hq1 : q ∈ acc.uniqueValues := List.mem_of_find?_eq_some hfind
      have hq2 : q.2 = i := by
        have := List.find?_some hfind
        simpa using this
      have : q = (x, i) := snd_inj_of_nodup hnd hq1 h hq2
      rw [this]
      rfl

theorem mem_of_valueAt (acc : SetAccumulator T) (x : T) (i : Int)
    (h : acc.valueAt i = some x) : (x, i) ∈ acc.uniqueValues := by
  unfold SetAccumulator.valueAt at h
  cases hfind : acc.uniqueValues.find? (fun p => decide (p.2 = i)) with
  | none => rw [hfind] at h; cases h
  | some q =>
      rw [hfind] at h
      have hq1 : q ∈ acc.uniqueValues := List.mem_of_find?_eq_some hfind
      have hq2 : q.2 = i := by
        have := List.find?_some hfind
        simpa using this
      have hx : q.1 = x := by simpa using h
      obtain ⟨q1, q2⟩ := q
      simp only at hq2 hx
      rw [← hx, ← hq2]
      exact hq1

theorem sortedPairs_zero (acc : SetAccumulator T) : sortedPairs acc 0 = [] :=
  rfl

theorem sortedPairs_succ_null (acc : SetAccumulator T) (m : Nat)
    (hj : acc.nullIndex = some (m : Int)) :
    sortedPairs acc (m + 1) = sortedPairs acc m := by
  unfold sortedPairs
  rw [List.range_succ, List.filterMap_append]
  simp [hj]

theorem sortedPairs_succ_val (acc : SetAccumulator T) (m : Nat) (x : T)
    (hne : acc.nullIndex ≠ some (m : Int))
    (hv : acc.valueAt (m : Int) = some x) :
    sortedPairs acc (m + 1) = sortedPairs acc m ++ [(x, (m : Int))] := by
  unfold sortedPairs
  rw [List.range_succ, List.filterMap_append]
  simp [hne, hv]

theorem sortedPairs_mem_sub (acc : SetAccumulator T) (m : Nat) (p : T × Int)
    (h : p ∈ sortedPairs acc m) :
    p ∈ acc.uniqueValues ∧ ∃ iN : Nat, iN < m ∧ p.2 = (iN : Int) := by
  unfold sortedPairs at h
  obtain ⟨iN, hiN, hf⟩ := List.mem_filterMap.1 h
  rw [List.mem_range] at hiN
  split_ifs at hf
  cases hv : acc.valueAt (iN : Int) with
  | none => rw [hv] at hf; cases hf
  | some x =>
      rw [hv] at hf
      injection hf with hf2
      subst hf2
      exact ⟨mem_of_valueAt acc x _ hv, ⟨iN, hiN, rfl⟩⟩

theorem mem_sortedPairs_size (acc : SetAccumulator T) (hw : ScalarWF acc)
    (p : T × Int) :
    p ∈ sortedPairs acc acc.size ↔ p ∈ acc.uniqueValues := by
  constructor
  · intro h
    exact (sortedPairs_mem_sub acc acc.size p h).1
  · intro h
    have hb := wf_ord_bounds acc hw p.1 p.2 (by
      rwa [show (p.1, p.2) = p from rfl])
    unfold sortedPairs
    apply List.mem_filterMap.2
    refine ⟨p.2.toNat, ?_, ?_⟩
    · rw [List.mem_range]; omega
    · rw [Int.toNat_of_nonneg hb.1, if_neg (fun hc => hb.2.2 hc),
        valueAt_of_mem acc (wf_snds_nodup acc hw) p.1 p.2 (by
          rwa [show (p.1, p.2) = p from rfl])]
      rfl

theorem sortedPairs_nodup (acc : SetAccumulator T) (m : Nat) :
    (sortedPairs acc m).Nodup := by
  unfold sortedPairs
  apply List.Nodup.filterMap ?_ (List.nodup_range m)
  intro a a' b hb hb'
  split_ifs at hb with h1
  · cases hb
  · split_ifs at hb' with h2
    · cases hb'
    · cases hva : acc.valueAt (a : Int) with
      | none => rw [hva] at hb; cases hb
      | some x =>
          cases hva' : acc.valueAt (a' : Int) with
          | none => rw [hva'] at hb'; cases hb'
          | some x' =>
              rw [hva] at hb; rw [hva'] at hb'
              rw [Option.mem_def] at hb hb'
              injection hb with hb2
              injection hb' with hb2'
              have ha : b.2 = (a : Int) := by rw [← hb2]
              have ha' : b.2 = (a' : Int) := by rw [← hb2']
              omega

/-! ## Scalar deserialize loop -/

theorem kAt_zero (acc : SetAccumulator T) (hw : ScalarWF acc) :
    kAt acc 0 = 0 := by
  cases hni : acc.nullIndex with
  | none => simp [kAt, hni]
  | some j =>
      have := wf_null_bounds acc hw j hni
      simp only [kAt, hni, Nat.cast_zero]
      rw [if_neg (by omega)]

theorem readValues_build [DecidableEq T] (acc : SetAccumulator T)
    (hw : ScalarWF acc) (w : Nat) (m : Nat) :
    ∀ iN : Nat, iN + m = acc.size →
    readValues (acc.serialize w).slots m (iN : Int) (kAt acc iN)
      ⟨acc.nullIndex, sortedPairs acc iN⟩ =
      some ⟨acc.nullIndex, sortedPairs acc acc.size⟩ := by
  induction m with
  | zero =>
      intro iN hsum
      rw [show iN = acc.size by omega]
      rfl
  | succ m ih =>
      intro iN hsum
      have hiNs : iN < acc.size := by omega
      by_cases hnull : acc.nullIndex = some (iN : Int)
      · rw [show readValues (acc.serialize w).slots (m + 1) (iN : Int)
            (kAt acc iN) ⟨acc.nullIndex, sortedPairs acc iN⟩ =
            (if SetAccumulator.isNullIndex ⟨acc.nullIndex, sortedPairs acc iN⟩
                (iN : Int) = true then
              readValues (acc.serialize w).slots m ((iN : Int) + 1)
                (kAt acc iN) ⟨acc.nullIndex, sortedPairs acc iN⟩
            else
              match (acc.serialize w).slots (kAt acc iN) with
              | some x => readValues (acc.serialize w).slots m ((iN : Int) + 1)
                  (kAt acc iN + 1)
                  ⟨acc.nullIndex, (mapInsert scalarEq (sortedPairs acc iN) x
                    (iN : Int)).1⟩
              | none => none) from rfl]
        have hisn : SetAccumulator.isNullIndex
            ⟨acc.nullIndex, sortedPairs acc iN⟩ (iN : Int) = true := by
          simp [SetAccumulator.isNullIndex, hnull]
        rw [if_pos hisn]
        have hk : kAt acc iN = kAt acc (iN + 1) := by
          simp only [kAt, hnull]
          rw [if_neg (by omega), if_pos (by push_cast; omega)]
          push_cast; omega
        have hsp : sortedPairs acc iN = sortedPairs acc (iN + 1) :=
          (sortedPairs_succ_null acc iN hnull).symm
        rw [hk, hsp, show ((iN : Int) + 1) = ((iN + 1 : Nat) : Int) by
          push_cast; omega]
        exact ih (iN + 1) (by omega)
      · have hb0 : (0 : Int) ≤ (iN : Int) := by omega
        have hbs : (iN : Int) < (acc.size : Int) := by exact_mod_cast hiNs
        obtain ⟨x, hx⟩ := wf_exists_pair acc hw (iN : Int) hb0 hbs
          (fun hc => hnull hc)
        have hslot : (acc.serialize w).slots (kAt acc iN) = some x := by
          have hkeq : kAt acc iN = slotPos acc.nullPosition (iN : Int) := by
            cases hni : acc.nullIndex with
            | none =>
                simp only [kAt, hni, SetAccumulator.nullPosition, slotPos]
                rw [if_pos (by
                  have : (acc.size : Int) = acc.uniqueValues.length := by
                    simp [SetAccumulator.size, hni]
                  omega)]
            | some j =>
                have hjne : j ≠ (iN : Int) := by
                  intro hc; exact hnull (by rw [hni, hc])
                simp only [kAt, hni, SetAccumulator.nullPosition, slotPos]
                rcases lt_or_gt_of_ne hjne with hlt | hgt
                · rw [if_pos hlt, if_neg (by omega)]
                · rw [if_neg (by omega), if_pos (by omega)]
          rw [hkeq]
          exact serialize_slot_mem acc hw w x (iN : Int) hx
        have hisn : SetAccumulator.isNullIndex
            ⟨acc.nullIndex, sortedPairs acc iN⟩ (iN : Int) = false := by
          cases hni : acc.nullIndex with
          | none => simp [SetAccumulator.isNullIndex, hni]
          | some j =>
              have hjne : (iN : Int) ≠ j := by
                intro hc; exact hnull (by rw [hni, hc])
              simp [SetAccumulator.isNullIndex, hni, hjne]
        have hins : (mapInsert scalarEq (sortedPairs acc iN) x (iN : Int)).1 =
            sortedPairs acc iN ++ [(x, (iN : Int))] := by
          rw [mapInsert_new]
          intro p hp
          obtain ⟨hpm, iN', hiN', hpe⟩ := sortedPairs_mem_sub acc iN p hp
          simp only [scalarEq, decide_eq_true_eq]
          intro he
          have : p = (x, (iN : Int)) :=
            fst_inj_of_nodup hw.2 hpm hx he
          rw [this] at hpe
          simp only at hpe
          omega
        rw [show readValues (acc.serialize w).slots (m + 1) (iN : Int)
            (kAt acc iN) ⟨acc.nullIndex, sortedPairs acc iN⟩ =
            (if SetAccumulator.isNullIndex ⟨acc.nullIndex, sortedPairs acc iN⟩
                (iN : Int) = true then
              readValues (acc.serialize w).slots m ((iN : Int) + 1)
                (kAt acc iN) ⟨acc.nullIndex, sortedPairs acc iN⟩
            else
              match (acc.serialize w).slots (kAt acc iN) with
              | some x => readValues (acc.serialize w).slots m ((iN : Int) + 1)
                  (kAt acc iN + 1)
                  ⟨acc.nullIndex, (mapInsert scalarEq (sortedPairs acc iN) x
                    (iN : Int)).1⟩
              | none => none) from rfl]
        rw [if_neg (by rw [hisn]; exact Bool.false_ne_true), hslot]
        have hsp : sortedPairs acc iN ++ [(x, (iN : Int))] =
            sortedPairs acc (iN + 1) :=
          (sortedPairs_succ_val acc iN x (fun hc => hnull hc)
            (valueAt_of_mem acc (wf_snds_nodup acc hw) x (iN : Int) hx)).symm
        show readValues (acc.serialize w).slots m ((iN : Int) + 1)
            (kAt acc iN + 1)
            ⟨acc.nullIndex, (mapInsert scalarEq (sortedPairs acc iN) x
              (iN : Int)).1⟩ =
          some ⟨acc.nullIndex, sortedPairs acc acc.size⟩
        have hk1 : kAt acc iN + 1 = kAt acc (iN + 1) := by
          cases hni : acc.nullIndex with
          | none => simp only [kAt, hni]; push_cast; omega
          | some j =>
              have hjne : j ≠ (iN : Int) := by
                intro hc; exact hnull (by rw [hni, hc])
              simp only [kAt, hni]
              rcases lt_or_gt_of_ne hjne with hlt | hgt
              · rw [if_pos hlt, if_pos (by push_cast; omega)]
                push_cast; omega
              · rw [if_neg (by omega), if_neg (by push_cast; omega)]
                push_cast; omega
        rw [hins, hsp, hk1, show ((iN : Int) + 1) = ((iN + 1 : Nat) : Int) by
          push_cast; omega]
        exact ih (iN + 1) (by omega)

/-- Scalar round trip: deserializing the serialized buffer into a fresh
accumulator rebuilds the identical null index and a permutation of the
value-to-ordinal map. -/
theorem scalar_roundtrip [DecidableEq T] (acc : SetAccumulator T)
    (h : ReachS acc) (w : Nat) :
    (SetAccumulator.empty T).deserialize (acc.serialize w) =
      some ⟨acc.nullIndex, sortedPairs acc acc.size⟩ ∧
    List.Perm (sortedPairs acc acc.size) acc.uniqueValues := by
  have hw := scalar_wf acc h
  constructor
  · have hd : (SetAccumulator.empty T).deserializeNullIndex
        (acc.serialize w).nullField =
        some ⟨acc.nullIndex, ([] : List (T × Int))⟩ := by
      cases hni : acc.nullIndex with
      | none =>
          simp [SetAccumulator.deserializeNullIndex, SetAccumulator.empty,
            SetAccumulator.serialize,
            SetAccumulator.nullIndexSerializationValue, hni]
      | some j =>
          have hj := wf_null_bounds acc hw j hni
          simp only [SetAccumulator.deserializeNullIndex,
            SetAccumulator.empty, SetAccumulator.serialize,
            SetAccumulator.nullIndexSerializationValue, hni,
            Option.isSome_none, Bool.false_eq_true, if_false, kNoNullIndex]
          rw [if_neg (by omega)]
    have hnumAll : (if (⟨acc.nullIndex, ([] : List (T × Int))⟩ :
        SetAccumulator T).nullIndex.isSome
        then (acc.serialize w).countField + 1
        else (acc.serialize w).countField) = acc.size := by
      cases hni : acc.nullIndex <;>
        simp [SetAccumulator.size, hni, SetAccumulator.serialize]
    unfold SetAccumulator.deserialize
    rw [hd]
    show readValues (acc.serialize w).slots
      (if (⟨acc.nullIndex, ([] : List (T × Int))⟩ :
          SetAccumulator T).nullIndex.isSome
        then (acc.serialize w).countField + 1
        else (acc.serialize w).countField) 0 0
      ⟨acc.nullIndex, ([] : List (T × Int))⟩ =
      some ⟨acc.nullIndex, sortedPairs acc acc.size⟩
    rw [hnumAll]
    have hb := readValues_build acc hw w acc.size 0 (by omega)
    rw [kAt_zero acc hw, sortedPairs_zero] at hb
    simp only [Nat.cast_zero] at hb
    exact hb
  · refine (List.perm_ext_iff_of_nodup (sortedPairs_nodup acc acc.size)
      (List.Nodup.of_map _ hw.2)).2 ?_
    intro p
    exact mem_sortedPairs_size acc hw p

/-! ## String views and the string store -/

theorem mkStringView_content (bs : List Nat) (loc : SLoc) :
    (mkStringView bs loc).content = bs := by
  unfold mkStringView
  split_ifs <;> rfl

theorem svEq_iff (a b : SView) : svEq a b = true ↔ a.content = b.content := by
  simp [svEq]

theorem storedOK_mono (s : Strings) (b : List Nat) (v : SView)
    (h : StoredOK s v) : StoredOK (s ++ [b]) v := by
  cases v with
  | inl bs => trivial
  | ref loc bs =>
      cases loc with
      | transient => exact h.elim
      | store i =>
          obtain ⟨hi, hg⟩ := h
          refine ⟨by simp; omega, ?_⟩
          rw [List.getD_eq_getElem?_getD, List.getElem?_append_left hi,
            ← List.getD_eq_getElem?_getD]
          exact hg

theorem strings_append_stored (s : Strings) (bs : List Nat)
    (h : ¬ bs.length ≤ kInlineSize) :
    StoredOK (s.append bs).1 (s.append bs).2 := by
  unfold Strings.append mkStringView
  rw [if_neg h]
  refine ⟨by simp, ?_⟩
  rw [List.getD_eq_getElem?_getD, List.getElem?_append_right (le_refl _)]
  simp

/-- Effect of insertUniqueValue: the inserted copy has the value's content,
the map gains one pair, the store either stays or gains the bytes, and the
byte counter grows by the tuple overhead plus the length. -/
theorem insertUnique_spec (a : StringViewSetAccumulator) (value : SView)
    (index : Int) :
    ∃ copy : SView,
      copy.content = value.content ∧
      (insertUniqueValue a value index).base.nullIndex = a.base.nullIndex ∧
      (insertUniqueValue a value index).base.uniqueValues =
        a.base.uniqueValues ++ [(copy, index)] ∧
      (insertUniqueValue a value index).stringSetBytes =
        a.stringSetBytes + 2 * kSizeOfVector + value.content.length ∧
      StoredOK (insertUniqueValue a value index).strings copy ∧
      (∀ v : SView, StoredOK a.strings v →
        StoredOK (insertUniqueValue a value index).strings v) := by
  cases hv : value with
  | inl bs =>
      refine ⟨SView.inl bs, rfl, rfl, ?_, ?_, ?_, ?_⟩
      · simp [insertUniqueValue, SView.isInline]
      · simp [insertUniqueValue, SView.isInline, SView.content]
      · show True
        trivial
      · intro v hst
        show StoredOK a.strings v
        exact hst
  | ref loc bs =>
      refine ⟨(Strings.append a.strings bs).2, ?_, rfl, ?_, ?_, ?_, ?_⟩
      · show (mkStringView bs (SLoc.store a.strings.length)).content = _
        rw [mkStringView_content]
        rfl
      · simp [insertUniqueValue, SView.isInline, Strings.append,
          SView.content]
      · show a.stringSetBytes + 2 * kSizeOfVector +
          (mkStringView bs (SLoc.store a.strings.length)).content.length =
          a.stringSetBytes + 2 * kSizeOfVector + bs.length
        rw [mkStringView_content]
      · show StoredOK (a.strings ++ [bs]) (Strings.append a.strings bs).2
        by_cases hl : bs.length ≤ kInlineSize
        · show StoredOK (a.strings ++ [bs])
            (mkStringView bs (SLoc.store a.strings.length))
          unfold mkStringView
          rw [if_pos hl]
          trivial
        · exact strings_append_stored a.strings bs hl
      · intro v hst
        show StoredOK (a.strings ++ [bs]) v
        exact storedOK_mono a.strings bs v hst

theorem strAcct_insertUnique (a : StringViewSetAccumulator) (value : SView)
    (index : Int) (hacct : StrAcct a)
    (habs : ∀ p ∈ a.base.uniqueValues, p.1.content ≠ value.content) :
    StrAcct (insertUniqueValue a value index) := by
  obtain ⟨copy, hc, hnull, hmap, hbytes, hstored, hmono⟩ :=
    insertUnique_spec a value index
  obtain ⟨hnd, hacc, hst⟩ := hacct
  refine ⟨?_, ?_, ?_⟩
  · rw [hmap, List.map_append, List.map_cons, List.map_nil]
    rw [List.nodup_append]
    refine ⟨hnd, List.nodup_singleton _, ?_⟩
    intro c hcm
    obtain ⟨p, hp, hpe⟩ := List.mem_map.1 hcm
    simp only [List.mem_singleton]
    intro he
    exact habs p hp (by rw [hpe, he, hc])
  · rw [hmap, hbytes, hacc, List.map_append, List.map_cons, List.map_nil,
      List.sum_append]
    simp only [List.sum_cons, List.sum_nil]
    rw [hc]
    omega
  · intro p hp
    rw [hmap] at hp
    rcases List.mem_append.1 hp with hold | hnew
    · exact hmono p.1 (hst p hold)
    · rw [List.mem_singleton] at hnew
      rw [hnew]
      exact hstored

/-! ## String addValue case equations -/

theorem strAddValue_null_first (a : StringViewSetAccumulator)
    (h : a.base.nullIndex = none) :
    a.addValue none = { a with base := { a.base with
      nullIndex := some (a.base.uniqueValues.length : Int) } } := by
  simp [StringViewSetAccumulator.addValue, h]

theorem strAddValue_null_again (a : StringViewSetAccumulator)
    (h : a.base.nullIndex.isSome) : a.addValue none = a := by
  simp [StringViewSetAccumulator.addValue, h]

theorem strAddValue_dup (a : StringViewSetAccumulator) (bs : List Nat)
    (h : ∃ p ∈ a.base.uniqueValues, p.1.content = bs) :
    a.addValue (some bs) = a := by
  have hany : (a.base.uniqueValues.any
      (fun p => svEq p.1 (mkStringView bs SLoc.transient))) = true := by
    apply List.any_eq_true.2
    obtain ⟨p, hp, he⟩ := h
    exact ⟨p, hp, by rw [svEq_iff, mkStringView_content, he]⟩
  simp [StringViewSetAccumulator.addValue, addValueView, hany]

theorem strAddValue_new (a : StringViewSetAccumulator) (bs : List Nat)
    (h : ∀ p ∈ a.base.uniqueValues, p.1.content ≠ bs) :
    a.addValue (some bs) =
      insertUniqueValue a (mkStringView bs SLoc.transient)
        (if a.base.nullIndex.isSome then (a.base.uniqueValues.length : Int) + 1
         else (a.base.uniqueValues.length : Int)) := by
  have hany : (a.base.uniqueValues.any
      (fun p => svEq p.1 (mkStringView bs SLoc.transient))) = false := by
    rw [← Bool.not_eq_true, List.any_eq_true]
    rintro ⟨p, hp, hpe⟩
    rw [svEq_iff, mkStringView_content] at hpe
    exact h p hp hpe
  simp [StringViewSetAccumulator.addValue, addValueView, hany]

/-! ## String accounting invariant -/

theorem strAcct_empty : StrAcct StringViewSetAccumulator.empty := by
  refine ⟨List.nodup_nil, ?_, ?_⟩
  · simp [StringViewSetAccumulator.empty, SetAccumulator.empty]
  · intro p hp
    simp [StringViewSetAccumulator.empty, SetAccumulator.empty] at hp

theorem addUniqueValue_some (a : StringViewSetAccumulator) (value : SView)
    (index : Int) (a2 : StringViewSetAccumulator)
    (h : addUniqueValue a value index = some a2) :
    (∀ p ∈ a.base.uniqueValues, p.1.content ≠ value.content) ∧
    a2 = insertUniqueValue a value index := by
  unfold addUniqueValue at h
  by_cases hany : (a.base.uniqueValues.any (fun p => svEq p.1 value)) = true
  · rw [if_pos hany] at h
    exact Option.noConfusion h
  · rw [if_neg hany] at h
    constructor
    · intro p hp he
      exact hany (List.any_eq_true.2 ⟨p, hp, (svEq_iff _ _).2 he⟩)
    · exact (Option.some.inj h).symm

theorem strAcct_addValue (a : StringViewSetAccumulator)
    (v : Option (List Nat)) (h : StrAcct a) : StrAcct (a.addValue v) := by
  match v with
  | none =>
      by_cases hn : a.base.nullIndex.isSome
      · rw [strAddValue_null_again a hn]
        exact h
      · rw [strAddValue_null_first a (Option.not_isSome_iff_eq_none.1 hn)]
        exact h
  | some bs =>
      by_cases hdup : ∃ p ∈ a.base.uniqueValues, p.1.content = bs
      · rw [strAddValue_dup a bs hdup]
        exact h
      · push_neg at hdup
        rw [strAddValue_new a bs hdup]
        refine strAcct_insertUnique a _ _ h ?_
        intro p hp
        rw [mkStringView_content]
        exact hdup p hp

theorem strRead_acct (n : Nat) :
    ∀ (toks : List Tok), toks.length ≤ n →
    ∀ (a : StringViewSetAccumulator) (offset size : Nat)
      (a2 : StringViewSetAccumulator),
    strReadTuples a toks offset size = some a2 → StrAcct a → StrAcct a2 := by
  induction n with
  | zero =>
      intro toks hlen a offset size a2 heq hacct
      have htn : toks = [] := List.length_eq_zero.1 (by omega)
      subst htn
      unfold strReadTuples at heq
      by_cases ho : offset < size
      · rw [if_pos ho] at heq
        exact Option.noConfusion heq
      · rw [if_neg ho] at heq
        rw [← Option.some.inj heq]
        exact hacct
  | succ n ih =>
      intro toks hlen a offset size a2 heq hacct
      unfold strReadTuples at heq
      by_cases ho : offset < size
      · rw [if_pos ho] at heq
        cases toks with
        | nil => exact Option.noConfusion heq
        | cons t1 rest1 =>
          cases t1 with
          | i32 v1 =>
            cases rest1 with
            | nil => exact Option.noConfusion heq
            | cons t2 rest2 =>
              cases t2 with
              | i32 v2 =>
                cases rest2 with
                | nil => exact Option.noConfusion heq
                | cons t3 rest3 =>
                  cases t3 with
                  | raw bs =>
                      simp only [] at heq
                      by_cases hlb : ((bs.length : Int) = v2)
                      · rw [if_pos hlb] at heq
                        cases hadd : addUniqueValue a
                            (mkStringView bs SLoc.transient) v1 with
                        | none =>
                            rw [hadd] at heq
                            exact Option.noConfusion heq
                        | some a3 =>
                            rw [hadd] at heq
                            obtain ⟨habs, ha3⟩ :=
                              addUniqueValue_some a _ v1 a3 hadd
                            refine ih rest3 (by simp at hlen; omega) a3 _ _
                              a2 heq ?_
                            rw [ha3]
                            exact strAcct_insertUnique a _ v1 hacct habs
                      · rw [if_neg hlb] at heq
                        exact Option.noConfusion heq
                  | i32 v3 => exact Option.noConfusion heq
                  | usize v3 => exact Option.noConfusion heq
                  | u64 v3 => exact Option.noConfusion heq
              | usize v2 => exact Option.noConfusion heq
              | u64 v2 => exact Option.noConfusion heq
              | raw v2 => exact Option.noConfusion heq
          | usize v1 => exact Option.noConfusion heq
          | u64 v1 => exact Option.noConfusion heq
          | raw v1 => exact Option.noConfusion heq
      · rw [if_neg ho] at heq
        rw [← Option.some.inj heq]
        exact hacct

theorem deserializeNullIndex_some (acc acc1 : SetAccumulator T) (v : Int)
    (h : acc.deserializeNullIndex v = some acc1) :
    acc.nullIndex = none ∧ acc1.uniqueValues = acc.uniqueValues ∧
    acc1.nullIndex = (if v = kNoNullIndex then none else some v) := by
  unfold SetAccumulator.deserializeNullIndex at h
  by_cases hs : acc.nullIndex.isSome
  · rw [if_pos hs] at h
    exact Option.noConfusion h
  · rw [if_neg hs] at h
    have hn : acc.nullIndex = none := Option.not_isSome_iff_eq_none.1 hs
    by_cases hv : v = kNoNullIndex
    · rw [if_pos hv] at h
      rw [← Option.some.inj h]
      exact ⟨hn, rfl, by rw [if_pos hv]; exact hn⟩
    · rw [if_neg hv] at h
      rw [← Option.some.inj h]
      exact ⟨hn, rfl, by rw [if_neg hv]⟩

theorem strDeserialize_acct (a a2 : StringViewSetAccumulator)
    (toks : List Tok) (size : Nat) (h : a.deserialize toks size = some a2)
    (hacct : StrAcct a) : StrAcct a2 := by
  unfold StringViewSetAccumulator.deserialize at h
  cases toks with
  | nil => exact Option.noConfusion h
  | cons t1 rest1 =>
    cases t1 with
    | i32 nf =>
      cases rest1 with
      | nil => exact Option.noConfusion h
      | cons t2 rest2 =>
        cases t2 with
        | usize numValues =>
            simp only [] at h
            cases hd : a.base.deserializeNullIndex nf with
            | none => rw [hd] at h; exact Option.noConfusion h
            | some base1 =>
                rw [hd] at h
                obtain ⟨hn0, hmap, hn1⟩ :=
                  deserializeNullIndex_some a.base base1 nf hd
                have hacct1 : StrAcct { a with base := base1 } := by
                  obtain ⟨h1, h2, h3⟩ := hacct
                  refine ⟨?_, ?_, ?_⟩
                  · show (List.map _ base1.uniqueValues).Nodup
                    rw [hmap]; exact h1
                  · show a.stringSetBytes = _
                    rw [hmap]; exact h2
                  · intro p hp
                    rw [hmap] at hp
                    exact h3 p hp
                replace h : (do
                    let a3 ← strReadTuples { a with base := base1 } rest2
                      (kSizeOfVector + kSizeOfSize) size
                    if numValues = a3.base.uniqueValues.length then some a3
                    else none) = some a2 := h
                cases hr : strReadTuples { a with base := base1 } rest2
                    (kSizeOfVector + kSizeOfSize) size with
                | none =>
                    rw [hr] at h
                    exact Option.noConfusion h
                | some a3 =>
                    rw [hr] at h
                    replace h : (if numValues = a3.base.uniqueValues.length
                      then some a3 else none) = some a2 := h
                    have hacct3 := strRead_acct rest2.length rest2 (le_refl _)
                      _ _ _ a3 hr hacct1
                    by_cases hc : numValues = a3.base.uniqueValues.length
                    · rw [if_pos hc] at h
                      rw [← Option.some.inj h]
                      exact hacct3
                    · rw [if_neg hc] at h
                      exact Option.noConfusion h
        | i32 v2 => exact Option.noConfusion h
        | u64 v2 => exact Option.noConfusion h
        | raw v2 => exact Option.noConfusion h
    | usize nf => exact Option.noConfusion h
    | u64 nf => exact Option.noConfusion h
    | raw nf => exact Option.noConfusion h

/-- Every state reachable through addValue, addValues and deserialize keeps
exact byte accounting, distinct contents, and store-owned keys. -/
theorem reachStr_acct (a : StringViewSetAccumulator) (h : ReachStr a) :
    StrAcct a := by
  induction h with
  | empty => exact strAcct_empty
  | add a v _ ih => exact strAcct_addValue a v ih
  | deser a a2 toks size _ heq ih => exact strDeserialize_acct a a2 toks size heq ih

/-- Add-only reachable string accumulators additionally have complete
ordinals. -/
theorem strA_wf (a : StringViewSetAccumulator) (h : ReachStrA a) :
    StrWF a := by
  induction h with
  | empty =>
      exact ⟨ordsC_nil, strAcct_empty⟩
  | add a v _ ih =>
      obtain ⟨ho, hacct⟩ := ih
      refine ⟨?_, strAcct_addValue a v hacct⟩
      match v with
      | none =>
          cases hni : a.base.nullIndex with
          | some j =>
              rw [strAddValue_null_again a (by simp [hni])]
              exact ho
          | none =>
              rw [strAddValue_null_first a hni]
              rw [hni] at ho
              have := ordsC_addNull ho
              simpa using this
      | some bs =>
          by_cases hdup : ∃ p ∈ a.base.uniqueValues, p.1.content = bs
          · rw [strAddValue_dup a bs hdup]
            exact ho
          · push_neg at hdup
            rw [strAddValue_new a bs hdup]
            obtain ⟨copy, hc, hnull, hmap, hbytes, hstored, hmono⟩ :=
              insertUnique_spec a (mkStringView bs SLoc.transient)
                (if a.base.nullIndex.isSome
                 then (a.base.uniqueValues.length : Int) + 1
                 else (a.base.uniqueValues.length : Int))
            rw [hmap]
            have := ordsC_addVal ho
            simp only [List.map_append, List.map_cons, List.map_nil] at this ⊢
            have hcast : ((ordsTotal (a.base.uniqueValues.map Prod.snd)
                a.base.nullIndex : Nat) : Int) =
                (if a.base.nullIndex.isSome
                 then (a.base.uniqueValues.length : Int) + 1
                 else (a.base.uniqueValues.length : Int)) := by
              simp only [ordsTotal, List.length_map]
              cases a.base.nullIndex <;> simp
            rwa [hcast] at this

/-! ## String serialize layout and byte accounting -/

theorem bytesLen_cons (t : Tok) (ts : List Tok) :
    bytesLen (t :: ts) = tokSize t + bytesLen ts := by
  simp [bytesLen]

theorem bytesLen_tupleToks (ts : List (Int × List Nat)) :
    bytesLen (tupleToks ts) = tupleBytes ts := by
  induction ts with
  | nil => rfl
  | cons t rest ih =>
      simp only [tupleToks, List.map_cons, List.flatten_cons, bytesLen,
        List.map_append, List.sum_append] at ih ⊢
      simp only [List.map_cons, List.map_nil, List.sum_cons, List.sum_nil,
        tokSize, tupleBytes, kSizeOfVector] at ih ⊢
      omega

theorem strSerialize_toks (a : StringViewSetAccumulator) :
    (a.serialize).1 = Tok.i32 a.base.nullIndexSerializationValue ::
      Tok.usize a.base.uniqueValues.length ::
      tupleToks (a.base.uniqueValues.map (fun p => (p.2, p.1.content))) := by
  unfold StringViewSetAccumulator.serialize tupleToks
  rw [List.map_map]
  rfl

theorem strSerialize_len (a : StringViewSetAccumulator) (ha : StrAcct a) :
    bytesLen (a.serialize).1 = a.stringSetBytes := by
  rw [strSerialize_toks, bytesLen_cons, bytesLen_cons, bytesLen_tupleToks]
  have ht : tupleBytes (a.base.uniqueValues.map (fun p => (p.2, p.1.content)))
      = (a.base.uniqueValues.map
          (fun p => 2 * kSizeOfVector + p.1.content.length)).sum := by
    unfold tupleBytes
    rw [List.map_map]
    rfl
  rw [ht, ha.2.1]
  simp [tokSize, kSizeOfVector, kSizeOfSize]
  omega

/-! ## String deserialize loop correctness -/

theorem strRead_tuples_build (ts : List (Int × List Nat)) :
    ∀ (aP : StringViewSetAccumulator) (offset size : Nat),
    size = offset + tupleBytes ts →
    ((aP.base.uniqueValues.map (fun p => p.1.content) ++
      ts.map Prod.snd).Nodup) →
    strReadTuples aP (tupleToks ts) offset size = some (insertAll aP ts) := by
  induction ts with
  | nil =>
      intro aP offset size hsize hnd
      unfold strReadTuples
      rw [if_neg (by
        simp only [tupleBytes, List.map_nil, List.sum_nil] at hsize
        omega)]
      rfl
  | cons t rest ih =>
      intro aP offset size hsize hnd
      have hbytes : tupleBytes (t :: rest) =
          2 * kSizeOfVector + t.2.length + tupleBytes rest := by
        simp only [tupleBytes, List.map_cons, List.sum_cons]
      rw [show tupleToks (t :: rest) = Tok.i32 t.1 ::
          Tok.i32 (t.2.length : Int) :: Tok.raw t.2 :: tupleToks rest from by
        simp [tupleToks]]
      unfold strReadTuples
      rw [if_pos (by rw [hbytes] at hsize; simp [kSizeOfVector] at hsize; omega)]
      simp only []
      rw [if_pos trivial]
      have habs : ∀ p ∈ aP.base.uniqueValues,
          p.1.content ≠ (mkStringView t.2 SLoc.transient).content := by
        intro p hp
        rw [mkStringView_content]
        rw [List.nodup_append] at hnd
        intro he
        exact hnd.2.2 (List.mem_map.2 ⟨p, hp, he⟩)
          (by rw [List.map_cons]; exact List.mem_cons_self _ _)
      have hadd : addUniqueValue aP (mkStringView t.2 SLoc.transient) t.1 =
          some (insertUniqueValue aP (mkStringView t.2 SLoc.transient) t.1) := by
        unfold addUniqueValue
        rw [if_neg]
        rw [List.any_eq_true]
        rintro ⟨p, hp, hpe⟩
        exact habs p hp ((svEq_iff _ _).1 hpe)
      rw [hadd]
      show strReadTuples (insertUniqueValue aP (mkStringView t.2 SLoc.transient)
          t.1) (tupleToks rest) (offset + kSizeOfVector + kSizeOfVector +
          t.2.length) size = some (insertAll aP (t :: rest))
      obtain ⟨copy, hc, hnull, hmap, hbytes2, hstored, hmono⟩ :=
        insertUnique_spec aP (mkStringView t.2 SLoc.transient) t.1
      have hcont : (insertUniqueValue aP (mkStringView t.2 SLoc.transient)
          t.1).base.uniqueValues.map (fun p => p.1.content) =
          aP.base.uniqueValues.map (fun p => p.1.content) ++ [t.2] := by
        rw [hmap, List.map_append, List.map_cons, List.map_nil, hc,
          mkStringView_content]
      refine ih _ _ _ (by rw [hbytes] at hsize; simp [kSizeOfVector] at hsize ⊢; omega) ?_
      rw [hcont, List.append_assoc]
      simpa using hnd

/-! ## Effect of the insert fold -/

theorem insertAll_spec (ts : List (Int × List Nat)) :
    ∀ (aP : StringViewSetAccumulator),
    (insertAll aP ts).base.nullIndex = aP.base.nullIndex ∧
    contentPairs (insertAll aP ts) =
      contentPairs aP ++ ts.map (fun t => (t.2, t.1)) ∧
    (insertAll aP ts).base.uniqueValues.length =
      aP.base.uniqueValues.length + ts.length ∧
    ((∀ p ∈ aP.base.uniqueValues, StoredOK aP.strings p.1) →
      ∀ p ∈ (insertAll aP ts).base.uniqueValues,
        StoredOK (insertAll aP ts).strings p.1) := by
  induction ts with
  | nil =>
      intro aP
      exact ⟨rfl, by simp [insertAll], by simp [insertAll], fun h => h⟩
  | cons t rest ih =>
      intro aP
      have hstep : insertAll aP (t :: rest) =
          insertAll (insertUniqueValue aP (mkStringView t.2 SLoc.transient)
            t.1) rest := rfl
      obtain ⟨copy, hc, hnull, hmap, hbytes, hstored, hmono⟩ :=
        insertUnique_spec aP (mkStringView t.2 SLoc.transient) t.1
      obtain ⟨ih1, ih2, ih3, ih4⟩ :=
        ih (insertUniqueValue aP (mkStringView t.2 SLoc.transient) t.1)
      refine ⟨?_, ?_, ?_, ?_⟩
      · rw [hstep, ih1, hnull]
      · rw [hstep, ih2]
        unfold contentPairs
        rw [hmap, List.map_append, List.map_cons, List.map_nil, hc,
          mkStringView_content, List.map_cons, List.append_assoc]
        rfl
      · rw [hstep, ih3, hmap]
        simp only [List.length_append, List.length_cons, List.length_nil]
        omega
      · intro hst
        rw [hstep]
        apply ih4
        intro p hp
        rw [hmap] at hp
        rcases List.mem_append.1 hp with hold | hnew
        · exact hmono p.1 (hst p hold)
        · rw [List.mem_singleton] at hnew
          rw [hnew]
          exact hstored

/-! ## String round trip -/

theorem strWF_base (a : StringViewSetAccumulator) (hw : StrWF a) :
    ScalarWF a.base := by
  refine ⟨hw.1, ?_⟩
  have h1 := hw.2.1
  have h2 : (a.base.uniqueValues.map Prod.fst).map SView.content =
      a.base.uniqueValues.map (fun p => p.1.content) := by
    rw [List.map_map]
    rfl
  exact List.Nodup.of_map SView.content (by rw [h2]; exact h1)

theorem tupleBytes_of_map (a : StringViewSetAccumulator) :
    tupleBytes (a.base.uniqueValues.map (fun p => (p.2, p.1.content))) =
      (a.base.uniqueValues.map
        (fun p => 2 * kSizeOfVector + p.1.content.length)).sum := by
  unfold tupleBytes
  rw [List.map_map]
  rfl

theorem string_roundtrip (a : StringViewSetAccumulator) (h : ReachStrA a) :
    ∃ a2 : StringViewSetAccumulator,
      StringViewSetAccumulator.empty.deserialize (a.serialize).1
        (a.serialize).2 = some a2 ∧
      a2.base.nullIndex = a.base.nullIndex ∧
      contentPairs a2 = contentPairs a ∧
      ∀ p ∈ a2.base.uniqueValues, StoredOK a2.strings p.1 := by
  have hw := strA_wf a h
  have hacct := hw.2
  have hbase := strWF_base a hw
  refine ⟨insertAll ⟨⟨a.base.nullIndex, []⟩, [], kSizeOfVector + kSizeOfSize⟩
    (a.base.uniqueValues.map (fun p => (p.2, p.1.content))), ?_, ?_, ?_, ?_⟩
  · rw [show (a.serialize).1 = Tok.i32 a.base.nullIndexSerializationValue ::
      Tok.usize a.base.uniqueValues.length ::
      tupleToks (a.base.uniqueValues.map (fun p => (p.2, p.1.content)))
      from strSerialize_toks a]
    unfold StringViewSetAccumulator.deserialize
    simp only []
    have hbase1 : (StringViewSetAccumulator.empty.base).deserializeNullIndex
        a.base.nullIndexSerializationValue =
        some ⟨a.base.nullIndex, []⟩ := by
      cases hni : a.base.nullIndex with
      | none =>
          simp [SetAccumulator.deserializeNullIndex,
            StringViewSetAccumulator.empty, SetAccumulator.empty,
            SetAccumulator.nullIndexSerializationValue, hni]
      | some j =>
          have hj := wf_null_bounds a.base hbase j hni
          simp only [SetAccumulator.deserializeNullIndex,
            StringViewSetAccumulator.empty, SetAccumulator.empty,
            SetAccumulator.nullIndexSerializationValue, hni,
            Option.isSome_none, Bool.false_eq_true, if_false, kNoNullIndex]
          rw [if_neg (by omega)]
    rw [hbase1]
    replace hread := strRead_tuples_build
      (a.base.uniqueValues.map (fun p => (p.2, p.1.content)))
      ⟨⟨a.base.nullIndex, []⟩, [], kSizeOfVector + kSizeOfSize⟩
      (kSizeOfVector + kSizeOfSize) (a.serialize).2 ?_ ?_
    · show (do
        let a2 ← strReadTuples
          ⟨⟨a.base.nullIndex, []⟩, [], kSizeOfVector + kSizeOfSize⟩
          (tupleToks (a.base.uniqueValues.map
            (fun (p : SView × Int) => (p.2, p.1.content))))
          (kSizeOfVector + kSizeOfSize) (a.serialize).2
        if a.base.uniqueValues.length = a2.base.uniqueValues.length
        then some a2 else none) = _
      rw [hread]
      have hlen := (insertAll_spec
        (a.base.uniqueValues.map (fun p => (p.2, p.1.content)))
        ⟨⟨a.base.nullIndex, []⟩, [], kSizeOfVector + kSizeOfSize⟩).2.2.1
      simp only [List.length_map] at hlen
      show (if a.base.uniqueValues.length = _ then _ else _) = _
      rw [if_pos (by rw [hlen]; simp)]
    · show (a.serialize).2 = kSizeOfVector + kSizeOfSize + _
      rw [show (a.serialize).2 = a.stringSetBytes from rfl, hacct.2.1,
        tupleBytes_of_map]
    · show ((([] : List (SView × Int)).map (fun (p : SView × Int) => p.1.content)) ++
        ((a.base.uniqueValues.map (fun p => (p.2, p.1.content))).map
          Prod.snd)).Nodup
      rw [List.map_map, List.map_nil, List.nil_append]
      exact hacct.1
  · rw [(insertAll_spec _ _).1]
  · rw [(insertAll_spec _ _).2.1]
    show _ = contentPairs a
    have hmm : (a.base.uniqueValues.map (fun p => (p.2, p.1.content))).map
        (fun t => (t.2, t.1)) = contentPairs a := by
      rw [List.map_map]
      rfl
    rw [hmm]
    show contentPairs ⟨⟨a.base.nullIndex, []⟩, [],
      kSizeOfVector + kSizeOfSize⟩ ++ contentPairs a = contentPairs a
    rfl
  · refine (insertAll_spec _ _).2.2.2 ?_
    intro p hp
    cases hp

/-! ## Complex accumulator: store and addEntry lemmas -/

theorem entryBytes_extend (store : AddrStore) (b : List Nat) (e : Entry)
    (h : e.pos < store.length) :
    entryBytes (store ++ [b]) e = entryBytes store e := by
  unfold entryBytes
  rw [List.getD_eq_getElem?_getD, List.getElem?_append_left h,
    ← List.getD_eq_getElem?_getD]

theorem entryBytes_new (store : AddrStore) (b : List Nat) (sz hsh : Nat) :
    entryBytes (store ++ [b]) ⟨store.length, sz, hsh⟩ = b := by
  unfold entryBytes
  rw [List.getD_eq_getElem?_getD, List.getElem?_append_right (le_refl _)]
  simp

theorem addEntry_inserted (a : ComplexTypeSetAccumulator) (entry : Entry)
    (index : Int)
    (h : ∀ p ∈ a.base.uniqueValues,
      entryBytes a.values p.1 ≠ entryBytes a.values entry) :
    addEntry a entry index = { a with
      base := { a.base with
        uniqueValues := a.base.uniqueValues ++ [(entry, index)] },
      totalSize :=
        a.totalSize + 2 * kSizeOfVector + kSizeOfHash + entry.size } := by
  have hn : ∀ p ∈ a.base.uniqueValues, ¬ (eqEntry a.values p.1 entry = true) := by
    intro p hp
    rw [eqEntry, decide_eq_true_eq]
    exact h p hp
  unfold addEntry
  rw [mapInsert_new _ _ _ _ hn]
  rfl

theorem addEntry_dup (a : ComplexTypeSetAccumulator) (entry : Entry)
    (index : Int)
    (h : ∃ p ∈ a.base.uniqueValues,
      entryBytes a.values p.1 = entryBytes a.values entry) :
    addEntry a entry index = { a with values := a.values.dropLast } := by
  have hd : ∃ p ∈ a.base.uniqueValues, eqEntry a.values p.1 entry := by
    obtain ⟨p, hp, he⟩ := h
    exact ⟨p, hp, by rw [eqEntry, decide_eq_true_eq]; exact he⟩
  unfold addEntry
  rw [mapInsert_dup _ _ _ _ hd]
  rfl

/-- Effect of one append-then-insert step on a fresh byte run: the entry is
appended to the store and inserted into the map, and the byte accounting
grows by the tuple overhead plus the length. -/
theorem cStep_eq (aP : ComplexTypeSetAccumulator) (idx : Int) (hsh : Nat)
    (bs : List Nat) (hacct : CAcct aP)
    (habs : ∀ p ∈ aP.base.uniqueValues, entryBytes aP.values p.1 ≠ bs) :
    addEntry { aP with values := aP.values ++ [bs] }
      ⟨aP.values.length, bs.length, hsh⟩ idx =
    { aP with
      base := { aP.base with uniqueValues := aP.base.uniqueValues ++
        [(⟨aP.values.length, bs.length, hsh⟩, idx)] },
      values := aP.values ++ [bs],
      totalSize :=
        aP.totalSize + 2 * kSizeOfVector + kSizeOfHash + bs.length } := by
  rw [addEntry_inserted]
  intro p hp
  show entryBytes (aP.values ++ [bs]) p.1 ≠
    entryBytes (aP.values ++ [bs]) ⟨aP.values.length, bs.length, hsh⟩
  rw [entryBytes_new, entryBytes_extend aP.values bs p.1 (hacct.2.2 p hp).1]
  exact habs p hp

/-- A duplicate byte run is rolled back: the step is the identity. -/
theorem cStep_dup (aP : ComplexTypeSetAccumulator) (idx : Int) (hsh : Nat)
    (bs : List Nat) (hacct : CAcct aP)
    (hdup : ∃ p ∈ aP.base.uniqueValues, entryBytes aP.values p.1 = bs) :
    addEntry { aP with values := aP.values ++ [bs] }
      ⟨aP.values.length, bs.length, hsh⟩ idx = aP := by
  rw [addEntry_dup]
  · show { aP with values := (aP.values ++ [bs]).dropLast } = aP
    simp
  · obtain ⟨p, hp, he⟩ := hdup
    refine ⟨p, hp, ?_⟩
    show entryBytes (aP.values ++ [bs]) p.1 =
      entryBytes (aP.values ++ [bs]) ⟨aP.values.length, bs.length, hsh⟩
    rw [entryBytes_new, entryBytes_extend aP.values bs p.1 (hacct.2.2 p hp).1]
    exact he

/-- The extended structure of cStep_eq keeps accounting well-formedness. -/
theorem cExtend_acct (aP : ComplexTypeSetAccumulator) (idx : Int) (hsh : Nat)
    (bs : List Nat) (hacct : CAcct aP)
    (habs : ∀ p ∈ aP.base.uniqueValues, entryBytes aP.values p.1 ≠ bs) :
    CAcct { aP with
      base := { aP.base with uniqueValues := aP.base.uniqueValues ++
        [(⟨aP.values.length, bs.length, hsh⟩, idx)] },
      values := aP.values ++ [bs],
      totalSize :=
        aP.totalSize + 2 * kSizeOfVector + kSizeOfHash + bs.length } := by
  obtain ⟨hnd, hacc, hst⟩ := hacct
  have hstable : ∀ p ∈ aP.base.uniqueValues,
      entryBytes (aP.values ++ [bs]) p.1 = entryBytes aP.values p.1 :=
    fun p hp => entryBytes_extend aP.values bs p.1 (hst p hp).1
  refine ⟨?_, ?_, ?_⟩
  · show ((aP.base.uniqueValues ++
      [((⟨aP.values.length, bs.length, hsh⟩ : Entry), idx)]).map
      (fun (p : Entry × Int) => entryBytes (aP.values ++ [bs]) p.1)).Nodup
    rw [List.map_append, List.map_cons, List.map_nil,
      List.map_congr_left hstable, List.nodup_append]
    refine ⟨hnd, List.nodup_singleton _, ?_⟩
    intro c hcm
    obtain ⟨p, hp, hpe⟩ := List.mem_map.1 hcm
    simp only [List.mem_singleton]
    rw [entryBytes_new]
    intro he
    exact habs p hp (by rw [hpe, he])
  · show aP.totalSize + 2 * kSizeOfVector + kSizeOfHash + bs.length =
      kSizeOfVector + kSizeOfSize + _
    rw [hacc, List.map_append, List.map_cons, List.map_nil, List.sum_append]
    simp only [List.sum_cons, List.sum_nil]
    omega
  · intro p hp
    rcases List.mem_append.1 hp with hold | hnew
    · obtain ⟨h1, h2⟩ := hst p hold
      constructor
      · show p.1.pos < (aP.values ++ [bs]).length
        simp only [List.length_append, List.length_cons, List.length_nil]
        omega
      · show ((aP.values ++ [bs]).getD p.1.pos []).length = p.1.size
        have hx := entryBytes_extend aP.values bs p.1 h1
        unfold entryBytes at hx
        rw [hx]
        exact h2
    · rw [List.mem_singleton] at hnew
      subst hnew
      constructor
      · show (⟨aP.values.length, bs.length, hsh⟩ : Entry).pos <
          (aP.values ++ [bs]).length
        simp
      · show ((aP.values ++ [bs]).getD
          (⟨aP.values.length, bs.length, hsh⟩ : Entry).pos []).length =
          (⟨aP.values.length, bs.length, hsh⟩ : Entry).size
        have hx := entryBytes_new aP.values bs bs.length hsh
        unfold entryBytes at hx
        rw [hx]

/-- Content pairs of the extended structure. -/
theorem cExtend_pairs (aP : ComplexTypeSetAccumulator) (idx : Int)
    (hsh : Nat) (bs : List Nat) (hacct : CAcct aP) :
    centryPairs { aP with
      base := { aP.base with uniqueValues := aP.base.uniqueValues ++
        [(⟨aP.values.length, bs.length, hsh⟩, idx)] },
      values := aP.values ++ [bs],
      totalSize :=
        aP.totalSize + 2 * kSizeOfVector + kSizeOfHash + bs.length } =
      centryPairs aP ++ [(bs, idx)] := by
  unfold centryPairs
  rw [List.map_append, List.map_cons, List.map_nil]
  show (aP.base.uniqueValues.map
    (fun p => (entryBytes (aP.values ++ [bs]) p.1, p.2))) ++
    [(entryBytes (aP.values ++ [bs]) ⟨aP.values.length, bs.length, hsh⟩, idx)]
    = _
  rw [entryBytes_new,
    List.map_congr_left (fun p hp => by
      rw [entryBytes_extend aP.values bs p.1 (hacct.2.2 p hp).1])]

/-! ## Complex addValue case equations -/

theorem cAddValue_null_first (hashFn : List Nat → Nat)
    (a : ComplexTypeSetAccumulator) (h : a.base.nullIndex = none) :
    a.addValue hashFn none = { a with base := { a.base with
      nullIndex := some (a.base.uniqueValues.length : Int) } } := by
  simp [ComplexTypeSetAccumulator.addValue, h]

theorem cAddValue_null_again (hashFn : List Nat → Nat)
    (a : ComplexTypeSetAccumulator) (h : a.base.nullIndex.isSome) :
    a.addValue hashFn none = a := by
  simp [ComplexTypeSetAccumulator.addValue, h]

theorem cAddValue_new (hashFn : List Nat → Nat)
    (a : ComplexTypeSetAccumulator) (bs : List Nat) (hacct : CAcct a)
    (habs : ∀ p ∈ a.base.uniqueValues, entryBytes a.values p.1 ≠ bs) :
    a.addValue hashFn (some bs) = { a with
      base := { a.base with uniqueValues := a.base.uniqueValues ++
        [((⟨a.values.length, bs.length, hashFn bs⟩ : Entry),
          if a.base.nullIndex.isSome
          then (a.base.uniqueValues.length : Int) + 1
          else (a.base.uniqueValues.length : Int))] },
      values := a.values ++ [bs],
      totalSize :=
        a.totalSize + 2 * kSizeOfVector + kSizeOfHash + bs.length } := by
  show addEntry { a with values := a.values ++ [bs] }
    ⟨a.values.length, bs.length, hashFn bs⟩
    (if a.base.nullIndex.isSome then (a.base.uniqueValues.length : Int) + 1
     else (a.base.uniqueValues.length : Int)) = _
  exact cStep_eq a _ (hashFn bs) bs hacct habs

theorem cAddValue_dup (hashFn : List Nat → Nat)
    (a : ComplexTypeSetAccumulator) (bs : List Nat) (hacct : CAcct a)
    (hdup : ∃ p ∈ a.base.uniqueValues, entryBytes a.values p.1 = bs) :
    a.addValue hashFn (some bs) = a := by
  show addEntry { a with values := a.values ++ [bs] }
    ⟨a.values.length, bs.length, hashFn bs⟩
    (if a.base.nullIndex.isSome then (a.base.uniqueValues.length : Int) + 1
     else (a.base.uniqueValues.length : Int)) = a
  exact cStep_dup a _ (hashFn bs) bs hacct hdup

/-! ## Complex accounting invariant -/

theorem cAcct_empty : CAcct ComplexTypeSetAccumulator.empty := by
  refine ⟨List.nodup_nil, ?_, ?_⟩
  · simp [ComplexTypeSetAccumulator.empty, SetAccumulator.empty]
  · intro p hp
    simp [ComplexTypeSetAccumulator.empty, SetAccumulator.empty] at hp

theorem cStep_acct (aP : ComplexTypeSetAccumulator) (idx : Int) (hsh : Nat)
    (bs : List Nat) (hacct : CAcct aP) :
    CAcct (addEntry { aP with values := aP.values ++ [bs] }
      ⟨aP.values.length, bs.length, hsh⟩ idx) := by
  by_cases hdup : ∃ p ∈ aP.base.uniqueValues, entryBytes aP.values p.1 = bs
  · rw [cStep_dup aP idx hsh bs hacct hdup]
    exact hacct
  · push_neg at hdup
    rw [cStep_eq aP idx hsh bs hacct hdup]
    exact cExtend_acct aP idx hsh bs hacct hdup

theorem cAcct_addValue (hashFn : List Nat → Nat)
    (a : ComplexTypeSetAccumulator) (v : Option (List Nat))
    (hacct : CAcct a) : CAcct (a.addValue hashFn v) := by
  match v with
  | none =>
      by_cases hn : a.base.nullIndex.isSome
      · rw [cAddValue_null_again hashFn a hn]
        exact hacct
      · rw [cAddValue_null_first hashFn a (Option.not_isSome_iff_eq_none.1 hn)]
        exact hacct
  | some bs =>
      show CAcct (addEntry { a with values := a.values ++ [bs] }
        ⟨a.values.length, bs.length, hashFn bs⟩ _)
      exact cStep_acct a _ (hashFn bs) bs hacct

theorem cRead_acct (n : Nat) :
    ∀ (toks : List Tok), toks.length ≤ n →
    ∀ (a : ComplexTypeSetAccumulator) (offset size : Nat)
      (a2 : ComplexTypeSetAccumulator),
    cmplxReadTuples a toks offset size = some a2 → CAcct a → CAcct a2 := by
  induction n with
  | zero =>
      intro toks hlen a offset size a2 heq hacct
      have htn : toks = [] := List.length_eq_zero.1 (by omega)
      subst htn
      unfold cmplxReadTuples at heq
      by_cases ho : offset < size
      · rw [if_pos ho] at heq
        exact Option.noConfusion heq
      · rw [if_neg ho] at heq
        rw [← Option.some.inj heq]
        exact hacct
  | succ n ih =>
      intro toks hlen a offset size a2 heq hacct
      unfold cmplxReadTuples at heq
      by_cases ho : offset < size
      · rw [if_pos ho] at heq
        cases toks with
        | nil => exact Option.noConfusion heq
        | cons t1 rest1 =>
          cases t1 with
          | i32 v1 =>
            cases rest1 with
            | nil => exact Option.noConfusion heq
            | cons t2 rest2 =>
              cases t2 with
              | i32 v2 =>
                cases rest2 with
                | nil => exact Option.noConfusion heq
                | cons t3 rest3 =>
                  cases t3 with
                  | u64 v3 =>
                    cases rest3 with
                    | nil => exact Option.noConfusion heq
                    | cons t4 rest4 =>
                      cases t4 with
                      | raw bs =>
                          simp only [] at heq
                          by_cases hlb : ((bs.length : Int) = v2)
                          · rw [if_pos hlb] at heq
                            refine ih rest4 (by simp at hlen; omega) _ _ _
                              a2 heq ?_
                            show CAcct (addEntry
                              { a with values := a.values ++ [bs] }
                              ⟨a.values.length, bs.length, v3⟩ v1)
                            exact cStep_acct a v1 v3 bs hacct
                          · rw [if_neg hlb] at heq
                            exact Option.noConfusion heq
                      | i32 v4 => exact Option.noConfusion heq
                      | usize v4 => exact Option.noConfusion heq
                      | u64 v4 => exact Option.noConfusion heq
                  | i32 v3 => exact Option.noConfusion heq
                  | usize v3 => exact Option.noConfusion heq
                  | raw v3 => exact Option.noConfusion heq
              | usize v2 => exact Option.noConfusion heq
              | u64 v2 => exact Option.noConfusion heq
              | raw v2 => exact Option.noConfusion heq
          | usize v1 => exact Option.noConfusion heq
          | u64 v1 => exact Option.noConfusion heq
          | raw v1 => exact Option.noConfusion heq
      · rw [if_neg ho] at heq
        rw [← Option.some.inj heq]
        exact hacct

theorem cDeserialize_acct (a a2 : ComplexTypeSetAccumulator)
    (toks : List Tok) (size : Nat) (h : a.deserialize toks size = some a2)
    (hacct : CAcct a) : CAcct a2 := by
  unfold ComplexTypeSetAccumulator.deserialize at h
  cases toks with
  | nil => exact Option.noConfusion h
  | cons t1 rest1 =>
    cases t1 with
    | i32 nf =>
      cases rest1 with
      | nil => exact Option.noConfusion h
      | cons t2 rest2 =>
        cases t2 with
        | usize numValues =>
            simp only [] at h
            cases hd : a.base.deserializeNullIndex nf with
            | none => rw [hd] at h; exact Option.noConfusion h
            | some base1 =>
                rw [hd] at h
                obtain ⟨hn0, hmap, hn1⟩ :=
                  deserializeNullIndex_some a.base base1 nf hd
                have hacct1 : CAcct { a with base := base1 } := by
                  obtain ⟨h1, h2, h3⟩ := hacct
                  refine ⟨?_, ?_, ?_⟩
                  · show (List.map _ base1.uniqueValues).Nodup
                    rw [hmap]; exact h1
                  · show a.totalSize = _
                    rw [hmap]; exact h2
                  · intro p hp
                    rw [hmap] at hp
                    exact h3 p hp
                replace h : (do
                    let a3 ← cmplxReadTuples { a with base := base1 } rest2
                      (kSizeOfVector + kSizeOfSize) size
                    if numValues = a3.base.uniqueValues.length then some a3
                    else none) = some a2 := h
                cases hr : cmplxReadTuples { a with base := base1 } rest2
                    (kSizeOfVector + kSizeOfSize) size with
                | none =>
                    rw [hr] at h
                    exact Option.noConfusion h
                | some a3 =>
                    rw [hr] at h
                    replace h : (if numValues = a3.base.uniqueValues.length
                      then some a3 else none) = some a2 := h
                    have hacct3 := cRead_acct rest2.length rest2 (le_refl _)
                      _ _ _ a3 hr hacct1
                    by_cases hc : numValues = a3.base.uniqueValues.length
                    · rw [if_pos hc] at h
                      rw [← Option.some.inj h]
                      exact hacct3
                    · rw [if_neg hc] at h
                      exact Option.noConfusion h
        | i32 v2 => exact Option.noConfusion h
        | u64 v2 => exact Option.noConfusion h
        | raw v2 => exact Option.noConfusion h
    | usize nf => exact Option.noConfusion h
    | u64 nf => exact Option.noConfusion h
    | raw nf => exact Option.noConfusion h

/-- Every state reachable through addValue, addValues and deserialize keeps
exact byte accounting, distinct entry contents, and valid handles. -/
theorem reachC_acct (hashFn : List Nat → Nat)
    (a : ComplexTypeSetAccumulator) (h : ReachC hashFn a) : CAcct a := by
  induction h with
  | empty => exact cAcct_empty
  | add a v _ ih => exact cAcct_addValue hashFn a v ih
  | deser a a2 toks size _ heq ih =>
      exact cDeserialize_acct a a2 toks size heq ih

/-- Add-only reachable complex accumulators additionally have complete
ordinals. -/
theorem cA_wf (hashFn : List Nat → Nat) (a : ComplexTypeSetAccumulator)
    (h : ReachCA hashFn a) : CWF a := by
  induction h with
  | empty => exact ⟨ordsC_nil, cAcct_empty⟩
  | add a v _ ih =>
      obtain ⟨ho, hacct⟩ := ih
      refine ⟨?_, cAcct_addValue hashFn a v hacct⟩
      match v with
      | none =>
          cases hni : a.base.nullIndex with
          | some j =>
              rw [cAddValue_null_again hashFn a (by simp [hni])]
              exact ho
          | none =>
              rw [cAddValue_null_first hashFn a hni]
              rw [hni] at ho
              have := ordsC_addNull ho
              simpa using this
      | some bs =>
          by_cases hdup : ∃ p ∈ a.base.uniqueValues,
              entryBytes a.values p.1 = bs
          · rw [cAddValue_dup hashFn a bs hacct hdup]
            exact ho
          · push_neg at hdup
            rw [cAddValue_new hashFn a bs hacct hdup]
            have := ordsC_addVal ho
            simp only [List.map_append, List.map_cons, List.map_nil] at this ⊢
            have hcast : ((ordsTotal (a.base.uniqueValues.map Prod.snd)
                a.base.nullIndex : Nat) : Int) =
                (if a.base.nullIndex.isSome
                 then (a.base.uniqueValues.length : Int) + 1
                 else (a.base.uniqueValues.length : Int)) := by
              simp only [ordsTotal, List.length_map]
              cases a.base.nullIndex <;> simp
            rwa [hcast] at this

/-! ## Complex serialize: the bounds-checked stream fills exactly -/

theorem sstream_append_ok (s : SerializationStream) (t : Tok)
    (h : s.offset + tokSize t ≤ s.totalSize) :
    s.append t = some ⟨s.toks ++ [t], s.totalSize, s.offset + tokSize t⟩ := by
  unfold SerializationStream.append
  rw [if_pos h]

theorem sstream_append_overflow (s : SerializationStream) (t : Tok)
    (h : ¬ s.offset + tokSize t ≤ s.totalSize) : s.append t = none := by
  unfold SerializationStream.append
  rw [if_neg h]

theorem bytesLen_ctupleToks (ts : List (Int × Nat × List Nat)) :
    bytesLen (ctupleToks ts) = ctupleBytes ts := by
  induction ts with
  | nil => rfl
  | cons t rest ih =>
      simp only [ctupleToks, List.map_cons, List.flatten_cons, bytesLen,
        List.map_append, List.sum_append] at ih ⊢
      simp only [List.map_cons, List.map_nil, List.sum_cons, List.sum_nil,
        tokSize, ctupleBytes, kSizeOfVector, kSizeOfHash] at ih ⊢
      omega

theorem sstream_append4 (s : SerializationStream) (t1 t2 t3 t4 : Tok)
    (h : s.offset + tokSize t1 + tokSize t2 + tokSize t3 + tokSize t4 ≤
      s.totalSize) :
    (do
      let sa ← SerializationStream.append s t1
      let sb ← SerializationStream.append sa t2
      let sc ← SerializationStream.append sb t3
      SerializationStream.append sc t4) =
    some ⟨s.toks ++ [t1, t2, t3, t4], s.totalSize,
      s.offset + tokSize t1 + tokSize t2 + tokSize t3 + tokSize t4⟩ := by
  rw [sstream_append_ok s t1 (by omega)]
  simp only [Option.bind_eq_bind, Option.some_bind]
  rw [sstream_append_ok ⟨s.toks ++ [t1], s.totalSize, s.offset + tokSize t1⟩
    t2 (by show s.offset + tokSize t1 + tokSize t2 ≤ s.totalSize; omega)]
  simp only [Option.bind_eq_bind, Option.some_bind]
  rw [sstream_append_ok ⟨(s.toks ++ [t1]) ++ [t2], s.totalSize,
    s.offset + tokSize t1 + tokSize t2⟩ t3
    (by show s.offset + tokSize t1 + tokSize t2 + tokSize t3 ≤ s.totalSize
        omega)]
  simp only [Option.bind_eq_bind, Option.some_bind]
  rw [sstream_append_ok ⟨((s.toks ++ [t1]) ++ [t2]) ++ [t3], s.totalSize,
    s.offset + tokSize t1 + tokSize t2 + tokSize t3⟩ t4
    (by show s.offset + tokSize t1 + tokSize t2 + tokSize t3 + tokSize t4 ≤
          s.totalSize
        omega)]
  simp [List.append_assoc]

theorem cserialize_fold (store : AddrStore) (ps : List (Entry × Int)) :
    ∀ (s : SerializationStream),
    (∀ p ∈ ps, (entryBytes store p.1).length = p.1.size) →
    s.offset + (ps.map
      (fun (q : Entry × Int) =>
        2 * kSizeOfVector + kSizeOfHash + q.1.size)).sum ≤ s.totalSize →
    ps.foldlM (fun s p => do
      let sa ← SerializationStream.append s (Tok.i32 p.2)
      let sb ← SerializationStream.append sa (Tok.i32 (p.1.size : Int))
      let sc ← SerializationStream.append sb (Tok.u64 p.1.hash)
      SerializationStream.append sc (Tok.raw (entryBytes store p.1))) s =
    some ⟨s.toks ++ ctupleToks (ps.map
        (fun (q : Entry × Int) => (q.2, q.1.hash, entryBytes store q.1))),
      s.totalSize,
      s.offset + (ps.map
        (fun (q : Entry × Int) =>
          2 * kSizeOfVector + kSizeOfHash + q.1.size)).sum⟩ := by
  induction ps with
  | nil =>
      intro s hsz hb
      show some s = _
      simp [ctupleToks]
  | cons p rest ih =>
      intro s hsz hb
      have hlenp : (entryBytes store p.1).length = p.1.size :=
        hsz p (List.mem_cons_self _ _)
      have hb0 : s.offset + (2 * kSizeOfVector + kSizeOfHash + p.1.size) +
          (rest.map (fun (q : Entry × Int) =>
            2 * kSizeOfVector + kSizeOfHash + q.1.size)).sum ≤
          s.totalSize := by
        simp only [List.map_cons, List.sum_cons] at hb
        omega
      rw [List.foldlM_cons]
      rw [sstream_append4 s (Tok.i32 p.2) (Tok.i32 (p.1.size : Int))
        (Tok.u64 p.1.hash) (Tok.raw (entryBytes store p.1)) (by
          simp only [tokSize, kSizeOfVector, kSizeOfHash] at hb0 ⊢
          rw [hlenp]
          omega)]
      have hbnd : (⟨s.toks ++ [Tok.i32 p.2, Tok.i32 (p.1.size : Int),
          Tok.u64 p.1.hash, Tok.raw (entryBytes store p.1)], s.totalSize,
          s.offset + tokSize (Tok.i32 p.2) + tokSize (Tok.i32 (p.1.size : Int))
          + tokSize (Tok.u64 p.1.hash) +
          tokSize (Tok.raw (entryBytes store p.1))⟩ :
          SerializationStream).offset +
          (rest.map (fun (q : Entry × Int) =>
            2 * kSizeOfVector + kSizeOfHash + q.1.size)).sum ≤
          (⟨s.toks ++ [Tok.i32 p.2, Tok.i32 (p.1.size : Int),
          Tok.u64 p.1.hash, Tok.raw (entryBytes store p.1)], s.totalSize,
          s.offset + tokSize (Tok.i32 p.2) + tokSize (Tok.i32 (p.1.size : Int))
          + tokSize (Tok.u64 p.1.hash) +
          tokSize (Tok.raw (entryBytes store p.1))⟩ :
          SerializationStream).totalSize := by
        show s.offset + tokSize (Tok.i32 p.2) +
          tokSize (Tok.i32 (p.1.size : Int)) + tokSize (Tok.u64 p.1.hash) +
          tokSize (Tok.raw (entryBytes store p.1)) + _ ≤ s.totalSize
        simp only [tokSize, kSizeOfVector, kSizeOfHash] at hb0 ⊢
        rw [hlenp]
        omega
      rw [bind_some_reduce]
      rw [ih ⟨s.toks ++ [Tok.i32 p.2, Tok.i32 (p.1.size : Int),
          Tok.u64 p.1.hash, Tok.raw (entryBytes store p.1)], s.totalSize,
          s.offset + tokSize (Tok.i32 p.2) + tokSize (Tok.i32 (p.1.size : Int))
          + tokSize (Tok.u64 p.1.hash) +
          tokSize (Tok.raw (entryBytes store p.1))⟩
        (fun q hq => hsz q (List.mem_cons_of_mem _ hq)) hbnd]
      simp only [Option.some.injEq]
      have htoks : s.toks ++ [Tok.i32 p.2, Tok.i32 (p.1.size : Int),
          Tok.u64 p.1.hash, Tok.raw (entryBytes store p.1)] ++
          ctupleToks (rest.map (fun (q : Entry × Int) =>
            (q.2, q.1.hash, entryBytes store q.1)))
          = s.toks ++ ctupleToks ((p :: rest).map
            (fun (q : Entry × Int) => (q.2, q.1.hash, entryBytes store q.1))) := by
        simp only [ctupleToks, List.map_cons, List.flatten_cons,
          List.append_assoc, List.cons_append, List.nil_append]
        rw [hlenp]
      have hoffs : s.offset + tokSize (Tok.i32 p.2) +
          tokSize (Tok.i32 (p.1.size : Int)) + tokSize (Tok.u64 p.1.hash) +
          tokSize (Tok.raw (entryBytes store p.1)) +
          (rest.map (fun (q : Entry × Int) =>
            2 * kSizeOfVector + kSizeOfHash + q.1.size)).sum
          = s.offset + ((p :: rest).map (fun (q : Entry × Int) =>
            2 * kSizeOfVector + kSizeOfHash + q.1.size)).sum := by
        simp only [tokSize, kSizeOfVector, kSizeOfHash, List.map_cons,
          List.sum_cons]
        rw [hlenp]
        omega
      simp only [SerializationStream.mk.injEq]
      exact ⟨htoks, trivial, hoffs⟩

theorem cSerialize_ok (a : ComplexTypeSetAccumulator) (hacct : CAcct a) :
    a.serialize = some (Tok.i32 a.base.nullIndexSerializationValue ::
      Tok.usize a.base.uniqueValues.length ::
      ctupleToks (a.base.uniqueValues.map
        (fun (q : Entry × Int) => (q.2, q.1.hash, entryBytes a.values q.1))),
      a.totalSize) := by
  unfold ComplexTypeSetAccumulator.serialize
  have htot : a.totalSize = kSizeOfVector + kSizeOfSize +
      (a.base.uniqueValues.map
        (fun p => 2 * kSizeOfVector + kSizeOfHash + p.1.size)).sum :=
    hacct.2.1
  show (do
    let s1 ← SerializationStream.append ⟨[], a.totalSize, 0⟩
      (Tok.i32 a.base.nullIndexSerializationValue)
    let s2 ← SerializationStream.append s1
      (Tok.usize a.base.uniqueValues.length)
    let sF ← a.base.uniqueValues.foldlM
      (fun (s : SerializationStream) (p : Entry × Int) => do
        let sa ← SerializationStream.append s (Tok.i32 p.2)
        let sb ← SerializationStream.append sa (Tok.i32 (p.1.size : Int))
        let sc ← SerializationStream.append sb (Tok.u64 p.1.hash)
        SerializationStream.append sc (Tok.raw (entryBytes a.values p.1))) s2
    pure (sF.toks, a.totalSize)) = _
  rw [sstream_append_ok ⟨[], a.totalSize, 0⟩
    (Tok.i32 a.base.nullIndexSerializationValue) (by
      show 0 + tokSize (Tok.i32 a.base.nullIndexSerializationValue) ≤
        a.totalSize
      simp only [tokSize, kSizeOfVector, kSizeOfSize] at htot ⊢
      omega)]
  show (do
    let s2 ← SerializationStream.append
      ⟨[] ++ [Tok.i32 a.base.nullIndexSerializationValue], a.totalSize,
        0 + tokSize (Tok.i32 a.base.nullIndexSerializationValue)⟩
      (Tok.usize a.base.uniqueValues.length)
    let sF ← a.base.uniqueValues.foldlM
      (fun (s : SerializationStream) (p : Entry × Int) => do
        let sa ← SerializationStream.append s (Tok.i32 p.2)
        let sb ← SerializationStream.append sa (Tok.i32 (p.1.size : Int))
        let sc ← SerializationStream.append sb (Tok.u64 p.1.hash)
        SerializationStream.append sc (Tok.raw (entryBytes a.values p.1))) s2
    pure (sF.toks, a.totalSize)) = _
  rw [sstream_append_ok ⟨[] ++ [Tok.i32 a.base.nullIndexSerializationValue],
    a.totalSize, 0 + tokSize (Tok.i32 a.base.nullIndexSerializationValue)⟩
    (Tok.usize a.base.uniqueValues.length) (by
      show 0 + tokSize (Tok.i32 a.base.nullIndexSerializationValue) +
        tokSize (Tok.usize a.base.uniqueValues.length) ≤ a.totalSize
      simp only [tokSize, kSizeOfVector, kSizeOfSize] at htot ⊢
      omega)]
  show (do
    let sF ← a.base.uniqueValues.foldlM
      (fun (s : SerializationStream) (p : Entry × Int) => do
        let sa ← SerializationStream.append s (Tok.i32 p.2)
        let sb ← SerializationStream.append sa (Tok.i32 (p.1.size : Int))
        let sc ← SerializationStream.append sb (Tok.u64 p.1.hash)
        SerializationStream.append sc (Tok.raw (entryBytes a.values p.1)))
      ⟨([] ++ [Tok.i32 a.base.nullIndexSerializationValue]) ++
        [Tok.usize a.base.uniqueValues.length], a.totalSize,
        0 + tokSize (Tok.i32 a.base.nullIndexSerializationValue) +
          tokSize (Tok.usize a.base.uniqueValues.length)⟩
    pure (sF.toks, a.totalSize)) = _
  have hbnd2 : (⟨([] ++ [Tok.i32 a.base.nullIndexSerializationValue]) ++
      [Tok.usize a.base.uniqueValues.length], a.totalSize,
      0 + tokSize (Tok.i32 a.base.nullIndexSerializationValue) +
        tokSize (Tok.usize a.base.uniqueValues.length)⟩ :
      SerializationStream).offset +
      (a.base.uniqueValues.map (fun (q : Entry × Int) =>
        2 * kSizeOfVector + kSizeOfHash + q.1.size)).sum ≤
      (⟨([] ++ [Tok.i32 a.base.nullIndexSerializationValue]) ++
      [Tok.usize a.base.uniqueValues.length], a.totalSize,
      0 + tokSize (Tok.i32 a.base.nullIndexSerializationValue) +
        tokSize (Tok.usize a.base.uniqueValues.length)⟩ :
      SerializationStream).totalSize := by
    show 0 + tokSize (Tok.i32 a.base.nullIndexSerializationValue) +
      tokSize (Tok.usize a.base.uniqueValues.length) + _ ≤ a.totalSize
    simp only [tokSize, kSizeOfVector, kSizeOfSize, kSizeOfHash] at htot ⊢
    omega
  rw [cserialize_fold a.values a.base.uniqueValues
    ⟨([] ++ [Tok.i32 a.base.nullIndexSerializationValue]) ++
      [Tok.usize a.base.uniqueValues.length], a.totalSize,
      0 + tokSize (Tok.i32 a.base.nullIndexSerializationValue) +
        tokSize (Tok.usize a.base.uniqueValues.length)⟩
    (fun p hp => (hacct.2.2 p hp).2) hbnd2]
  show some ((⟨(([] ++ [Tok.i32 a.base.nullIndexSerializationValue]) ++
      [Tok.usize a.base.uniqueValues.length]) ++
      ctupleToks (a.base.uniqueValues.map
        (fun (q : Entry × Int) => (q.2, q.1.hash, entryBytes a.values q.1))),
      a.totalSize,
      0 + tokSize (Tok.i32 a.base.nullIndexSerializationValue) +
        tokSize (Tok.usize a.base.uniqueValues.length) +
        (a.base.uniqueValues.map (fun (q : Entry × Int) =>
          2 * kSizeOfVector + kSizeOfHash + q.1.size)).sum⟩ :
      SerializationStream).toks, a.totalSize) = _
  simp only [Option.some.injEq]
  refine Prod.ext ?_ rfl
  show (([] ++ [Tok.i32 a.base.nullIndexSerializationValue]) ++
    [Tok.usize a.base.uniqueValues.length]) ++
    ctupleToks (a.base.uniqueValues.map
      (fun (q : Entry × Int) => (q.2, q.1.hash, entryBytes a.values q.1))) = _
  simp only [List.nil_append, List.cons_append, List.append_assoc]

/-! ## Complex deserialize loop correctness -/

theorem centryPairs_fst (a : ComplexTypeSetAccumulator) :
    (centryPairs a).map Prod.fst =
      a.base.uniqueValues.map (fun p => entryBytes a.values p.1) := by
  unfold centryPairs
  rw [List.map_map]
  rfl

theorem cRead_tuples_build (ts : List (Int × Nat × List Nat)) :
    ∀ (aP : ComplexTypeSetAccumulator) (offset size : Nat),
    size = offset + ctupleBytes ts →
    CAcct aP →
    ((aP.base.uniqueValues.map (fun p => entryBytes aP.values p.1) ++
      ts.map (fun t => t.2.2)).Nodup) →
    cmplxReadTuples aP (ctupleToks ts) offset size =
      some (cInsertAll aP ts) := by
  induction ts with
  | nil =>
      intro aP offset size hsize hacct hnd
      unfold cmplxReadTuples
      rw [if_neg (by
        simp only [ctupleBytes, List.map_nil, List.sum_nil] at hsize
        omega)]
      rfl
  | cons t rest ih =>
      intro aP offset size hsize hacct hnd
      have hbytes : ctupleBytes (t :: rest) =
          2 * kSizeOfVector + kSizeOfHash + t.2.2.length +
            ctupleBytes rest := by
        simp only [ctupleBytes, List.map_cons, List.sum_cons]
      rw [show ctupleToks (t :: rest) = Tok.i32 t.1 ::
          Tok.i32 (t.2.2.length : Int) :: Tok.u64 t.2.1 :: Tok.raw t.2.2 ::
          ctupleToks rest from by simp [ctupleToks]]
      unfold cmplxReadTuples
      rw [if_pos (by
        rw [hbytes] at hsize
        simp only [kSizeOfVector, kSizeOfHash] at hsize
        omega)]
      simp only []
      rw [if_pos trivial]
      have habs : ∀ p ∈ aP.base.uniqueValues,
          entryBytes aP.values p.1 ≠ t.2.2 := by
        intro p hp
        rw [List.nodup_append] at hnd
        intro he
        exact hnd.2.2 (List.mem_map.2 ⟨p, hp, he⟩)
          (by rw [List.map_cons]; exact List.mem_cons_self _ _)
      show cmplxReadTuples (addEntry { aP with values := aP.values ++ [t.2.2] }
          ⟨aP.values.length, t.2.2.length, t.2.1⟩ t.1) (ctupleToks rest)
          (offset + kSizeOfVector + kSizeOfVector + kSizeOfHash + t.2.2.length)
          size = some (cInsertAll aP (t :: rest))
      rw [cStep_eq aP t.1 t.2.1 t.2.2 hacct habs]
      have hcont : ({ aP with
          base := { aP.base with uniqueValues := aP.base.uniqueValues ++
            [(⟨aP.values.length, t.2.2.length, t.2.1⟩, t.1)] },
          values := aP.values ++ [t.2.2],
          totalSize := aP.totalSize + 2 * kSizeOfVector + kSizeOfHash +
            t.2.2.length } : ComplexTypeSetAccumulator).base.uniqueValues.map
          (fun p => entryBytes (aP.values ++ [t.2.2]) p.1) =
          aP.base.uniqueValues.map (fun p => entryBytes aP.values p.1) ++
            [t.2.2] := by
        show (aP.base.uniqueValues ++
          [((⟨aP.values.length, t.2.2.length, t.2.1⟩ : Entry), t.1)]).map
          (fun (p : Entry × Int) => entryBytes (aP.values ++ [t.2.2]) p.1) =
          aP.base.uniqueValues.map (fun p => entryBytes aP.values p.1) ++
            [t.2.2]
        rw [List.map_append, List.map_cons, List.map_nil,
          List.map_congr_left (fun p hp =>
            entryBytes_extend aP.values t.2.2 p.1 (hacct.2.2 p hp).1),
          entryBytes_new]
      rw [ih _ _ _ (by
          rw [hbytes] at hsize
          simp only [kSizeOfVector, kSizeOfHash] at hsize ⊢
          omega)
        (cExtend_acct aP t.1 t.2.1 t.2.2 hacct habs) (by
          rw [hcont, List.append_assoc]
          simpa using hnd)]
      have hfold : cInsertAll aP (t :: rest) = cInsertAll
          { aP with
            base := { aP.base with uniqueValues := aP.base.uniqueValues ++
              [(⟨aP.values.length, t.2.2.length, t.2.1⟩, t.1)] },
            values := aP.values ++ [t.2.2],
            totalSize := aP.totalSize + 2 * kSizeOfVector + kSizeOfHash +
              t.2.2.length } rest := by
        show cInsertAll (addEntry { aP with values := aP.values ++ [t.2.2] }
          ⟨aP.values.length, t.2.2.length, t.2.1⟩ t.1) rest = _
        rw [cStep_eq aP t.1 t.2.1 t.2.2 hacct habs]
      rw [hfold]

theorem cInsertAll_spec (ts : List (Int × Nat × List Nat)) :
    ∀ (aP : ComplexTypeSetAccumulator), CAcct aP →
    ((aP.base.uniqueValues.map (fun p => entryBytes aP.values p.1) ++
      ts.map (fun t => t.2.2)).Nodup) →
    (cInsertAll aP ts).base.nullIndex = aP.base.nullIndex ∧
    centryPairs (cInsertAll aP ts) =
      centryPairs aP ++ ts.map (fun t => (t.2.2, t.1)) ∧
    (cInsertAll aP ts).base.uniqueValues.length =
      aP.base.uniqueValues.length + ts.length ∧
    CAcct (cInsertAll aP ts) := by
  induction ts with
  | nil =>
      intro aP hacct hnd
      exact ⟨rfl, by simp [cInsertAll], by simp [cInsertAll], hacct⟩
  | cons t rest ih =>
      intro aP hacct hnd
      have habs : ∀ p ∈ aP.base.uniqueValues,
          entryBytes aP.values p.1 ≠ t.2.2 := by
        intro p hp
        rw [List.nodup_append] at hnd
        intro he
        exact hnd.2.2 (List.mem_map.2 ⟨p, hp, he⟩)
          (by rw [List.map_cons]; exact List.mem_cons_self _ _)
      have hstep : cInsertAll aP (t :: rest) = cInsertAll
          { aP with
            base := { aP.base with uniqueValues := aP.base.uniqueValues ++
              [(⟨aP.values.length, t.2.2.length, t.2.1⟩, t.1)] },
            values := aP.values ++ [t.2.2],
            totalSize := aP.totalSize + 2 * kSizeOfVector + kSizeOfHash +
              t.2.2.length } rest := by
        show cInsertAll (addEntry { aP with values := aP.values ++ [t.2.2] }
          ⟨aP.values.length, t.2.2.length, t.2.1⟩ t.1) rest = _
        rw [cStep_eq aP t.1 t.2.1 t.2.2 hacct habs]
      have hcont : ({ aP with
          base := { aP.base with uniqueValues := aP.base.uniqueValues ++
            [(⟨aP.values.length, t.2.2.length, t.2.1⟩, t.1)] },
          values := aP.values ++ [t.2.2],
          totalSize := aP.totalSize + 2 * kSizeOfVector + kSizeOfHash +
            t.2.2.length } : ComplexTypeSetAccumulator).base.uniqueValues.map
          (fun p => entryBytes (aP.values ++ [t.2.2]) p.1) =
          aP.base.uniqueValues.map (fun p => entryBytes aP.values p.1) ++
            [t.2.2] := by
        show (aP.base.uniqueValues ++
          [((⟨aP.values.length, t.2.2.length, t.2.1⟩ : Entry), t.1)]).map
          (fun (p : Entry × Int) => entryBytes (aP.values ++ [t.2.2]) p.1) =
          aP.base.uniqueValues.map (fun p => entryBytes aP.values p.1) ++
            [t.2.2]
        rw [List.map_append, List.map_cons, List.map_nil,
          List.map_congr_left (fun p hp =>
            entryBytes_extend aP.values t.2.2 p.1 (hacct.2.2 p hp).1),
          entryBytes_new]
      have hndx : (({ aP with
          base := { aP.base with uniqueValues := aP.base.uniqueValues ++
            [(⟨aP.values.length, t.2.2.length, t.2.1⟩, t.1)] },
          values := aP.values ++ [t.2.2],
          totalSize := aP.totalSize + 2 * kSizeOfVector + kSizeOfHash +
            t.2.2.length } : ComplexTypeSetAccumulator).base.uniqueValues.map
            (fun p => entryBytes (aP.values ++ [t.2.2]) p.1) ++
          rest.map (fun t => t.2.2)).Nodup := by
        rw [hcont, List.append_assoc]
        simpa using hnd
      obtain ⟨ih1, ih2, ih3, ih4⟩ := ih _
        (cExtend_acct aP t.1 t.2.1 t.2.2 hacct habs) hndx
      refine ⟨?_, ?_, ?_, ?_⟩
      · rw [hstep, ih1]
      · rw [hstep, ih2, cExtend_pairs aP t.1 t.2.1 t.2.2 hacct,
          List.append_assoc]
        rfl
      · rw [hstep, ih3]
        simp only [List.length_append, List.length_cons, List.length_nil]
        omega
      · rw [hstep]
        exact ih4

/-! ## Complex round trip -/

theorem cWF_base (a : ComplexTypeSetAccumulator) (hw : CWF a) :
    ScalarWF a.base := by
  refine ⟨hw.1, ?_⟩
  have h1 := hw.2.1
  have h2 : (a.base.uniqueValues.map Prod.fst).map
      (fun e => entryBytes a.values e) =
      a.base.uniqueValues.map (fun p => entryBytes a.values p.1) := by
    rw [List.map_map]
    rfl
  exact List.Nodup.of_map (fun e => entryBytes a.values e)
    (by rw [h2]; exact h1)

theorem ctupleBytes_of_map (a : ComplexTypeSetAccumulator)
    (hacct : CAcct a) :
    ctupleBytes (a.base.uniqueValues.map
      (fun (q : Entry × Int) => (q.2, q.1.hash, entryBytes a.values q.1))) =
      (a.base.uniqueValues.map
        (fun p => 2 * kSizeOfVector + kSizeOfHash + p.1.size)).sum := by
  unfold ctupleBytes
  rw [List.map_map]
  refine congrArg List.sum ?_
  apply List.map_congr_left
  intro p hp
  show 2 * kSizeOfVector + kSizeOfHash + (entryBytes a.values p.1).length = _
  unfold entryBytes
  rw [(hacct.2.2 p hp).2]

theorem complex_roundtrip (hashFn : List Nat → Nat)
    (a : ComplexTypeSetAccumulator) (h : ReachCA hashFn a) :
    ∃ (toks : List Tok) (a2 : ComplexTypeSetAccumulator),
      a.serialize = some (toks, a.totalSize) ∧
      ComplexTypeSetAccumulator.empty.deserialize toks a.totalSize =
        some a2 ∧
      a2.base.nullIndex = a.base.nullIndex ∧
      centryPairs a2 = centryPairs a := by
  have hw := cA_wf hashFn a h
  have hacct := hw.2
  have hbase := cWF_base a hw
  refine ⟨Tok.i32 a.base.nullIndexSerializationValue ::
    Tok.usize a.base.uniqueValues.length ::
    ctupleToks (a.base.uniqueValues.map
      (fun (q : Entry × Int) => (q.2, q.1.hash, entryBytes a.values q.1))),
    cInsertAll ⟨⟨a.base.nullIndex, []⟩, [], kSizeOfVector + kSizeOfSize⟩
      (a.base.uniqueValues.map
        (fun (q : Entry × Int) => (q.2, q.1.hash, entryBytes a.values q.1))),
    cSerialize_ok a hacct, ?_, ?_, ?_⟩
  · unfold ComplexTypeSetAccumulator.deserialize
    simp only []
    have hbase1 : (ComplexTypeSetAccumulator.empty.base).deserializeNullIndex
        a.base.nullIndexSerializationValue =
        some ⟨a.base.nullIndex, []⟩ := by
      cases hni : a.base.nullIndex with
      | none =>
          simp [SetAccumulator.deserializeNullIndex,
            ComplexTypeSetAccumulator.empty, SetAccumulator.empty,
            SetAccumulator.nullIndexSerializationValue, hni]
      | some j =>
          have hj := wf_null_bounds a.base hbase j hni
          simp only [SetAccumulator.deserializeNullIndex,
            ComplexTypeSetAccumulator.empty, SetAccumulator.empty,
            SetAccumulator.nullIndexSerializationValue, hni,
            Option.isSome_none, Bool.false_eq_true, if_false, kNoNullIndex]
          rw [if_neg (by omega)]
    rw [hbase1]
    rw [bind_some_reduce]
    simp only [ComplexTypeSetAccumulator.empty]
    have hread := cRead_tuples_build
      (a.base.uniqueValues.map
        (fun (q : Entry × Int) => (q.2, q.1.hash, entryBytes a.values q.1)))
      ⟨⟨a.base.nullIndex, []⟩, [], kSizeOfVector + kSizeOfSize⟩
      (kSizeOfVector + kSizeOfSize) a.totalSize
      (by rw [ctupleBytes_of_map a hacct, ← hacct.2.1])
      (by
        refine ⟨List.nodup_nil, by simp, ?_⟩
        intro p hp
        cases hp)
      (by
        show ((([] : List (Entry × Int)).map
          (fun (p : Entry × Int) => entryBytes ([] : AddrStore) p.1)) ++
          ((a.base.uniqueValues.map (fun (q : Entry × Int) =>
            (q.2, q.1.hash, entryBytes a.values q.1))).map
            (fun t => t.2.2))).Nodup
        rw [List.map_map, List.map_nil, List.nil_append]
        exact hacct.1)
    rw [hread]
    rw [bind_some_reduce]
    have hlen := (cInsertAll_spec
      (a.base.uniqueValues.map
        (fun (q : Entry × Int) => (q.2, q.1.hash, entryBytes a.values q.1)))
      ⟨⟨a.base.nullIndex, []⟩, [], kSizeOfVector + kSizeOfSize⟩
      (by
        refine ⟨List.nodup_nil, by simp, ?_⟩
        intro p hp
        cases hp)
      (by
        show ((([] : List (Entry × Int)).map
          (fun (p : Entry × Int) => entryBytes ([] : AddrStore) p.1)) ++
          ((a.base.uniqueValues.map (fun (q : Entry × Int) =>
            (q.2, q.1.hash, entryBytes a.values q.1))).map
            (fun t => t.2.2))).Nodup
        rw [List.map_map, List.map_nil, List.nil_append]
        exact hacct.1)).2.2.1
    simp only [List.length_map] at hlen
    show (if a.base.uniqueValues.length = _ then _ else _) = _
    rw [if_pos (by rw [hlen]; simp)]
  · exact (cInsertAll_spec _ _
      (by
        refine ⟨List.nodup_nil, by simp, ?_⟩
        intro p hp
        cases hp)
      (by
        show ((([] : List (Entry × Int)).map
          (fun (p : Entry × Int) => entryBytes ([] : AddrStore) p.1)) ++
          ((a.base.uniqueValues.map (fun (q : Entry × Int) =>
            (q.2, q.1.hash, entryBytes a.values q.1))).map
            (fun t => t.2.2))).Nodup
        rw [List.map_map, List.map_nil, List.nil_append]
        exact hacct.1)).1
  · have hspec := (cInsertAll_spec _
      ⟨⟨a.base.nullIndex, []⟩, [], kSizeOfVector + kSizeOfSize⟩
      (by
        refine ⟨List.nodup_nil, by simp, ?_⟩
        intro p hp
        cases hp)
      (by
        show ((([] : List (Entry × Int)).map
          (fun (p : Entry × Int) => entryBytes ([] : AddrStore) p.1)) ++
          ((a.base.uniqueValues.map (fun (q : Entry × Int) =>
            (q.2, q.1.hash, entryBytes a.values q.1))).map
            (fun t => t.2.2))).Nodup
        rw [List.map_map, List.map_nil, List.nil_append]
        exact hacct.1)).2.1
    rw [hspec]
    have hmm : (a.base.uniqueValues.map (fun (q : Entry × Int) =>
        (q.2, q.1.hash, entryBytes a.values q.1))).map
        (fun t => (t.2.2, t.1)) = centryPairs a := by
      rw [List.map_map]
      rfl
    rw [hmm]
    show centryPairs ⟨⟨a.base.nullIndex, []⟩, [],
      kSizeOfVector + kSizeOfSize⟩ ++ centryPairs a = centryPairs a
    rfl

/-! ## Complex extract characterization -/

theorem cExtract_ret (a : ComplexTypeSetAccumulator)
    (dest : Int → Cell (List Nat)) (offset : Int) :
    (a.extractValues dest offset).2 = a.size := rfl

theorem cExtract_val (a : ComplexTypeSetAccumulator) (hw : ScalarWF a.base)
    (dest : Int → Cell (List Nat)) (offset : Int) (e : Entry) (i : Int)
    (h : (e, i) ∈ a.base.uniqueValues) :
    (a.extractValues dest offset).1 (offset + i) =
      Cell.val (entryBytes a.values e) := by
  have hb := wf_ord_bounds a.base hw e i h
  have hd1 : writeList (fun p => offset + p.2)
      (fun p => Cell.val (entryBytes a.values p.1))
      a.base.uniqueValues dest (offset + i) =
      Cell.val (entryBytes a.values e) :=
    writeList_mem _ _ _ _ (e, i) h (extract_pos_nodup a.base hw offset)
  cases hni : a.base.nullIndex with
  | none =>
      simp only [ComplexTypeSetAccumulator.extractValues, hni]
      exact hd1
  | some j =>
      have hij : i ≠ j := fun hc => hb.2.2 (by rw [hni, hc])
      simp only [ComplexTypeSetAccumulator.extractValues, hni]
      rw [overwrite_other _ _ _ _ (by omega)]
      exact hd1

theorem cExtract_null (a : ComplexTypeSetAccumulator)
    (dest : Int → Cell (List Nat)) (offset : Int) (j : Int)
    (hj : a.base.nullIndex = some j) :
    (a.extractValues dest offset).1 (offset + j) = Cell.null := by
  simp only [ComplexTypeSetAccumulator.extractValues, hj]
  exact overwrite_same _ _ _

theorem cExtract_null_iff (a : ComplexTypeSetAccumulator)
    (hw : ScalarWF a.base) (dest : Int → Cell (List Nat)) (offset : Int)
    (i : Int) (h0 : 0 ≤ i) (hs : i < (a.size : Int)) :
    (a.extractValues dest offset).1 (offset + i) = Cell.null ↔
      a.base.nullIndex = some i := by
  constructor
  · intro hc
    by_contra hne
    obtain ⟨e, he⟩ := wf_exists_pair a.base hw i h0 hs hne
    rw [cExtract_val a hw dest offset e i he] at hc
    cases hc
  · exact cExtract_null a dest offset i

/-! ## Claim theorems -/

/-- C1: for every accumulator state built by addValue/addValues, serialize
followed by deserialize into a fresh accumulator of the same category yields
the same value set under the category's equality, the same null presence,
and the same ordinal for every value and for null: the scalar map is
rebuilt as a permutation of the original pairs, and the string and complex
maps are rebuilt with identical (content, ordinal) pairs. -/
theorem claim_C1_round_trip :
    (∀ (T : Type) [inst : DecidableEq T] (acc : SetAccumulator T) (w : Nat),
      ReachS acc →
      ∃ acc2 : SetAccumulator T,
        (SetAccumulator.empty T).deserialize (acc.serialize w) = some acc2 ∧
        acc2.nullIndex = acc.nullIndex ∧
        List.Perm acc2.uniqueValues acc.uniqueValues) ∧
    (∀ a : StringViewSetAccumulator, ReachStrA a →
      ∃ a2 : StringViewSetAccumulator,
        StringViewSetAccumulator.empty.deserialize (a.serialize).1
          (a.serialize).2 = some a2 ∧
        a2.base.nullIndex = a.base.nullIndex ∧
        contentPairs a2 = contentPairs a) ∧
    (∀ (hashFn : List Nat → Nat) (a : ComplexTypeSetAccumulator),
      ReachCA hashFn a →
      ∃ (toks : List Tok) (a2 : ComplexTypeSetAccumulator),
        a.serialize = some (toks, a.totalSize) ∧
        ComplexTypeSetAccumulator.empty.deserialize toks a.totalSize =
          some a2 ∧
        a2.base.nullIndex = a.base.nullIndex ∧
        centryPairs a2 = centryPairs a) := by
  refine ⟨?_, ?_, ?_⟩
  · intro T inst acc w h
    obtain ⟨hd, hperm⟩ := scalar_roundtrip acc h w
    exact ⟨_, hd, rfl, hperm⟩
  · intro a h
    obtain ⟨a2, h1, h2, h3, _⟩ := string_roundtrip a h
    exact ⟨a2, h1, h2, h3⟩
  · intro hashFn a h
    exact complex_roundtrip hashFn a h

/-- Witness for C1 at Scenario C: the scalar accumulator built from
[5, null, 3] (values 5@0, null@1, 3@2) serializes and deserializes back to
an accumulator with the same null index and pairs. -/
theorem claim_C1_round_trip_witness :
    ∃ acc2 : SetAccumulator Int,
      (SetAccumulator.empty Int).deserialize
        (((SetAccumulator.empty Int).addValues
          [some 5, none, some 3]).serialize 8) = some acc2 ∧
      acc2.nullIndex = ((SetAccumulator.empty Int).addValues
        [some 5, none, some 3]).nullIndex ∧
      List.Perm acc2.uniqueValues ((SetAccumulator.empty Int).addValues
        [some 5, none, some 3]).uniqueValues :=
  claim_C1_round_trip.1 Int
    ((SetAccumulator.empty Int).addValues [some 5, none, some 3]) 8
    (ReachS.add _ (some 3) (ReachS.add _ none
      (ReachS.add _ (some 5) ReachS.empty)))

/-- C2: for every sequence of additions in any category, the ordinals held
by the map together with the null index are exactly {0, ..., size-1} with no
gaps or duplicates, and size equals the map size plus one when a null is
recorded. -/
theorem claim_C2_ordinal_completeness :
    (∀ (T : Type) [inst : DecidableEq T] (acc : SetAccumulator T),
      ReachS acc →
      List.Perm (acc.uniqueValues.map Prod.snd ++ acc.nullIndex.toList)
        ((List.range acc.size).map Int.ofNat) ∧
      acc.size = acc.uniqueValues.length +
        (if acc.nullIndex.isSome then 1 else 0)) ∧
    (∀ a : StringViewSetAccumulator, ReachStrA a →
      List.Perm (a.base.uniqueValues.map Prod.snd ++
        a.base.nullIndex.toList) ((List.range a.size).map Int.ofNat) ∧
      a.size = a.base.uniqueValues.length +
        (if a.base.nullIndex.isSome then 1 else 0)) ∧
    (∀ (hashFn : List Nat → Nat) (a : ComplexTypeSetAccumulator),
      ReachCA hashFn a →
      List.Perm (a.base.uniqueValues.map Prod.snd ++
        a.base.nullIndex.toList) ((List.range a.size).map Int.ofNat) ∧
      a.size = a.base.uniqueValues.length +
        (if a.base.nullIndex.isSome then 1 else 0)) := by
  refine ⟨?_, ?_, ?_⟩
  · intro T inst acc h
    have hw := scalar_wf acc h
    refine ⟨?_, by simp [SetAccumulator.size]⟩
    have h1 := hw.1
    rwa [show OrdsC (acc.uniqueValues.map Prod.snd) acc.nullIndex =
      List.Perm (acc.uniqueValues.map Prod.snd ++ acc.nullIndex.toList)
        ((List.range (ordsTotal (acc.uniqueValues.map Prod.snd)
          acc.nullIndex)).map Int.ofNat) from rfl,
      scalarWF_size] at h1
  · intro a h
    have hw := strA_wf a h
    refine ⟨?_, by simp [StringViewSetAccumulator.size,
      SetAccumulator.size]⟩
    have h1 := hw.1
    rwa [show OrdsC (a.base.uniqueValues.map Prod.snd) a.base.nullIndex =
      List.Perm (a.base.uniqueValues.map Prod.snd ++
        a.base.nullIndex.toList)
        ((List.range (ordsTotal (a.base.uniqueValues.map Prod.snd)
          a.base.nullIndex)).map Int.ofNat) from rfl,
      scalarWF_size] at h1
  · intro hashFn a h
    have hw := cA_wf hashFn a h
    refine ⟨?_, by simp [ComplexTypeSetAccumulator.size,
      SetAccumulator.size]⟩
    have h1 := hw.1
    rwa [show OrdsC (a.base.uniqueValues.map Prod.snd) a.base.nullIndex =
      List.Perm (a.base.uniqueValues.map Prod.snd ++
        a.base.nullIndex.toList)
        ((List.range (ordsTotal (a.base.uniqueValues.map Prod.snd)
          a.base.nullIndex)).map Int.ofNat) from rfl,
      scalarWF_size] at h1

/-- Witness for C2: Scenario A's scalar accumulator ([5, null, 3, 5, null])
has complete ordinals {0, 1, 2} and size 3. -/
theorem claim_C2_ordinal_completeness_witness :
    List.Perm (((SetAccumulator.empty Int).addValues
        [some 5, none, some 3, some 5, none]).uniqueValues.map Prod.snd ++
      ((SetAccumulator.empty Int).addValues
        [some 5, none, some 3, some 5, none]).nullIndex.toList)
      ((List.range ((SetAccumulator.empty Int).addValues
        [some 5, none, some 3, some 5, none]).size).map Int.ofNat) ∧
    ((SetAccumulator.empty Int).addValues
      [some 5, none, some 3, some 5, none]).size =
      ((SetAccumulator.empty Int).addValues
        [some 5, none, some 3, some 5, none]).uniqueValues.length +
      (if ((SetAccumulator.empty Int).addValues
        [some 5, none, some 3, some 5, none]).nullIndex.isSome
       then 1 else 0) :=
  claim_C2_ordinal_completeness.1 Int
    ((SetAccumulator.empty Int).addValues
      [some 5, none, some 3, some 5, none])
    (ReachS.add _ none (ReachS.add _ (some 5) (ReachS.add _ (some 3)
      (ReachS.add _ none (ReachS.add _ (some 5) ReachS.empty)))))

/-- C3: adding a value that is already present (by the category's equality)
is a no-op: the whole accumulator state is unchanged, so size and the
previously assigned ordinal are unchanged, and for the complex category the
content store keeps its size (the speculative append is rolled back). -/
theorem claim_C3_insert_idempotent :
    (∀ (T : Type) [inst : DecidableEq T] (acc : SetAccumulator T) (x : T)
      (v : Int), (x, v) ∈ acc.uniqueValues →
      acc.addValue (some x) = acc ∧ (acc.addValue (some x)).size = acc.size) ∧
    (∀ (a : StringViewSetAccumulator) (bs : List Nat),
      (∃ p ∈ a.base.uniqueValues, p.1.content = bs) →
      a.addValue (some bs) = a ∧ (a.addValue (some bs)).size = a.size) ∧
    (∀ (hashFn : List Nat → Nat) (a : ComplexTypeSetAccumulator)
      (bs : List Nat), ReachC hashFn a →
      (∃ p ∈ a.base.uniqueValues, entryBytes a.values p.1 = bs) →
      a.addValue hashFn (some bs) = a ∧
      (a.addValue hashFn (some bs)).size = a.size ∧
      (a.addValue hashFn (some bs)).values.length = a.values.length) := by
  refine ⟨?_, ?_, ?_⟩
  · intro T inst acc x v hmem
    have he := addValue_dup acc x ⟨(x, v), hmem, rfl⟩
    exact ⟨he, by rw [he]⟩
  · intro a bs hdup
    have he := strAddValue_dup a bs hdup
    exact ⟨he, by rw [he]⟩
  · intro hashFn a bs hr hdup
    have hacct := reachC_acct hashFn a hr
    have he := cAddValue_dup hashFn a bs hacct hdup
    exact ⟨he, by rw [he], by rw [he]⟩

/-- Witness for C3: re-adding 5 to a scalar accumulator holding 5, the
string "abc"-like bytes, and a complex byte run already stored all leave
the state unchanged. -/
theorem claim_C3_insert_idempotent_witness :
    (((SetAccumulator.empty Int).addValue (some 5)).addValue (some 5) =
      (SetAccumulator.empty Int).addValue (some 5) ∧
     (((SetAccumulator.empty Int).addValue (some 5)).addValue
       (some 5)).size = ((SetAccumulator.empty Int).addValue (some 5)).size) ∧
    ((StringViewSetAccumulator.empty.addValue
        (some [1, 2, 3])).addValue (some [1, 2, 3]) =
      StringViewSetAccumulator.empty.addValue (some [1, 2, 3]) ∧
     ((StringViewSetAccumulator.empty.addValue
        (some [1, 2, 3])).addValue (some [1, 2, 3])).size =
      (StringViewSetAccumulator.empty.addValue (some [1, 2, 3])).size) ∧
    (((ComplexTypeSetAccumulator.empty.addValue (fun _ => 0)
        (some [7])).addValue (fun _ => 0) (some [7]) =
      ComplexTypeSetAccumulator.empty.addValue (fun _ => 0) (some [7])) ∧
     ((ComplexTypeSetAccumulator.empty.addValue (fun _ => 0)
        (some [7])).addValue (fun _ => 0) (some [7])).size =
      (ComplexTypeSetAccumulator.empty.addValue (fun _ => 0)
        (some [7])).size ∧
     ((ComplexTypeSetAccumulator.empty.addValue (fun _ => 0)
        (some [7])).addValue (fun _ => 0) (some [7])).values.length =
      (ComplexTypeSetAccumulator.empty.addValue (fun _ => 0)
        (some [7])).values.length) :=
  ⟨claim_C3_insert_idempotent.1 Int
      ((SetAccumulator.empty Int).addValue (some 5)) 5 0 (by decide),
   claim_C3_insert_idempotent.2.1
      (StringViewSetAccumulator.empty.addValue (some [1, 2, 3])) [1, 2, 3]
      ⟨(SView.inl [1, 2, 3], 0), by decide, by decide⟩,
   claim_C3_insert_idempotent.2.2 (fun _ => 0)
      (ComplexTypeSetAccumulator.empty.addValue (fun _ => 0) (some [7])) [7]
      (ReachC.add _ (some [7]) ReachC.empty)
      ⟨(⟨0, 1, 0⟩, 0), by decide, by decide⟩⟩

/-- C4: in every category, the first addValue of a null sets nullIndex to
the next available ordinal (the map size at that moment) and every later
null is a no-op leaving the whole state unchanged; consequently, in the
extracted window of a reachable scalar or complex accumulator whose
nullIndex is j, a cell is null exactly at position j. -/
theorem claim_C4_null_singularity :
    (∀ (T : Type) [inst : DecidableEq T] (acc : SetAccumulator T),
      (acc.nullIndex = none → acc.addValue none =
        { acc with nullIndex := some (acc.uniqueValues.length : Int) }) ∧
      (acc.nullIndex.isSome → acc.addValue none = acc)) ∧
    (∀ a : StringViewSetAccumulator,
      (a.base.nullIndex = none → a.addValue none = { a with base :=
        { a.base with
          nullIndex := some (a.base.uniqueValues.length : Int) } }) ∧
      (a.base.nullIndex.isSome → a.addValue none = a)) ∧
    (∀ (hashFn : List Nat → Nat) (a : ComplexTypeSetAccumulator),
      (a.base.nullIndex = none → a.addValue hashFn none = { a with base :=
        { a.base with
          nullIndex := some (a.base.uniqueValues.length : Int) } }) ∧
      (a.base.nullIndex.isSome → a.addValue hashFn none = a)) ∧
    (∀ (T : Type) [inst : DecidableEq T] (acc : SetAccumulator T)
      (dest : Int → Cell T) (offset i j : Int), ReachS acc →
      acc.nullIndex = some j → 0 ≤ i → i < (acc.size : Int) →
      ((acc.extractValues dest offset).1 (offset + i) = Cell.null ↔
        i = j)) ∧
    (∀ (hashFn : List Nat → Nat) (a : ComplexTypeSetAccumulator)
      (dest : Int → Cell (List Nat)) (offset i j : Int), ReachCA hashFn a →
      a.base.nullIndex = some j → 0 ≤ i → i < (a.size : Int) →
      ((a.extractValues dest offset).1 (offset + i) = Cell.null ↔
        i = j)) := by
  refine ⟨?_, ?_, ?_, ?_, ?_⟩
  · intro T inst acc
    exact ⟨addValue_null_first acc, addValue_null_again acc⟩
  · intro a
    exact ⟨strAddValue_null_first a, strAddValue_null_again a⟩
  · intro hashFn a
    exact ⟨cAddValue_null_first hashFn a, cAddValue_null_again hashFn a⟩
  · intro T inst acc dest offset i j hr hj h0 hs
    rw [extract_null_iff acc (scalar_wf acc hr) dest offset i h0 hs, hj]
    simp [eq_comm]
  · intro hashFn a dest offset i j hr hj h0 hs
    rw [cExtract_null_iff a (cWF_base a (cA_wf hashFn a hr)) dest offset i
      h0 hs, hj]
    simp [eq_comm]

/-- Witness for C4: on an integer accumulator holding 5, the first null
takes ordinal 1, a second null changes nothing, and extraction marks
position 0 non-null (0 = 1 is false). -/
theorem claim_C4_null_singularity_witness :
    ((SetAccumulator.empty Int).addValue (some 5)).addValue none =
      (⟨some 1, [(5, 0)]⟩ : SetAccumulator Int) ∧
    ((⟨some 1, [(5, 0)]⟩ : SetAccumulator Int).addValue none =
      (⟨some 1, [(5, 0)]⟩ : SetAccumulator Int)) ∧
    (((⟨some 1, [(5, 0)]⟩ : SetAccumulator Int).extractValues
        (fun _ => Cell.val 0) 0).1 (0 + 0) = Cell.null ↔ (0 : Int) = 1) :=
  ⟨(claim_C4_null_singularity.1 Int
      ((SetAccumulator.empty Int).addValue (some 5))).1 (by decide),
   (claim_C4_null_singularity.1 Int ⟨some 1, [(5, 0)]⟩).2 (by decide),
   claim_C4_null_singularity.2.2.2.1 Int ⟨some 1, [(5, 0)]⟩
      (fun _ => Cell.val 0) 0 0 1
      (ReachS.add _ none (ReachS.add _ (some 5) ReachS.empty))
      (by decide) (by decide) (by decide)⟩

/-- C5: scalar serialize emits the null-index field and the count field,
writes each value of ordinal v into fixed-width slot (v if v <
nullPosition else v - 1) with nullPosition = nullIndex-or-count, fills
slots 0..count-1 exactly (no gap for the null ordinal), and the output
length is exactly kSizeOfVector + kSizeOfSize + width * count. -/
theorem claim_C5_scalar_serialize_layout (T : Type) [inst : DecidableEq T]
    (acc : SetAccumulator T) (w : Nat) (h : ReachS acc) :
    (acc.serialize w).totalBytes =
      kSizeOfVector + kSizeOfSize + w * acc.uniqueValues.length ∧
    (acc.serialize w).nullField = acc.nullIndexSerializationValue ∧
    (acc.serialize w).countField = acc.uniqueValues.length ∧
    (∀ x v, (x, v) ∈ acc.uniqueValues →
      (acc.serialize w).slots (slotPos acc.nullPosition v) = some x) ∧
    (∀ q : Int, ((acc.serialize w).slots q).isSome ↔
      0 ≤ q ∧ q < (acc.uniqueValues.length : Int)) := by
  have hw := scalar_wf acc h
  exact ⟨rfl, rfl, rfl,
    fun x v hx => serialize_slot_mem acc hw w x v hx,
    fun q => serialize_slot_coverage acc hw w q⟩

/-- Witness for C5 at Scenario C: serializing the accumulator built from
[5, null, 3] with 8-byte values has the stated layout. -/
theorem claim_C5_scalar_serialize_layout_witness :
    ((((SetAccumulator.empty Int).addValues
        [some 5, none, some 3]).serialize 8).totalBytes =
      kSizeOfVector + kSizeOfSize +
        8 * ((SetAccumulator.empty Int).addValues
          [some 5, none, some 3]).uniqueValues.length) ∧
    ((((SetAccumulator.empty Int).addValues
        [some 5, none, some 3]).serialize 8).nullField =
      ((SetAccumulator.empty Int).addValues
        [some 5, none, some 3]).nullIndexSerializationValue) ∧
    ((((SetAccumulator.empty Int).addValues
        [some 5, none, some 3]).serialize 8).countField =
      ((SetAccumulator.empty Int).addValues
        [some 5, none, some 3]).uniqueValues.length) ∧
    (∀ x v, (x, v) ∈ ((SetAccumulator.empty Int).addValues
        [some 5, none, some 3]).uniqueValues →
      (((SetAccumulator.empty Int).addValues
        [some 5, none, some 3]).serialize 8).slots
        (slotPos ((SetAccumulator.empty Int).addValues
          [some 5, none, some 3]).nullPosition v) = some x) ∧
    (∀ q : Int, ((((SetAccumulator.empty Int).addValues
        [some 5, none, some 3]).serialize 8).slots q).isSome ↔
      0 ≤ q ∧ q < (((SetAccumulator.empty Int).addValues
        [some 5, none, some 3]).uniqueValues.length : Int)) :=
  claim_C5_scalar_serialize_layout Int
    ((SetAccumulator.empty Int).addValues [some 5, none, some 3]) 8
    (ReachS.add _ (some 3) (ReachS.add _ none
      (ReachS.add _ (some 5) ReachS.empty)))

/-- C6: for every reachable scalar accumulator, extractValues writes each
stored value at destination[offset + ordinal], marks destination[offset +
nullIndex] null when a null was accepted, and returns size(); and Scenario
A (adding [5, null, 3, 5, null] to a fresh integer accumulator) yields
size 3, nullIndex 1, and extracted cells [5, null, 3] at positions
[0, 1, 2]. -/
theorem claim_C6_extract_values :
    (∀ (T : Type) [inst : DecidableEq T] (acc : SetAccumulator T)
      (dest : Int → Cell T) (offset : Int), ReachS acc →
      (∀ x i, (x, i) ∈ acc.uniqueValues →
        (acc.extractValues dest offset).1 (offset + i) = Cell.val x) ∧
      (∀ j, acc.nullIndex = some j →
        (acc.extractValues dest offset).1 (offset + j) = Cell.null) ∧
      (acc.extractValues dest offset).2 = acc.size) ∧
    (((SetAccumulator.empty Int).addValues
        [some 5, none, some 3, some 5, none]).size = 3 ∧
     ((SetAccumulator.empty Int).addValues
        [some 5, none, some 3, some 5, none]).nullIndex = some 1 ∧
     ∀ dest : Int → Cell Int,
       (((SetAccumulator.empty Int).addValues
          [some 5, none, some 3, some 5, none]).extractValues dest 0).1 0 =
          Cell.val 5 ∧
       (((SetAccumulator.empty Int).addValues
          [some 5, none, some 3, some 5, none]).extractValues dest 0).1 1 =
          Cell.null ∧
       (((SetAccumulator.empty Int).addValues
          [some 5, none, some 3, some 5, none]).extractValues dest 0).1 2 =
          Cell.val 3 ∧
       (((SetAccumulator.empty Int).addValues
          [some 5, none, some 3, some 5, none]).extractValues
          dest 0).2 = 3) := by
  refine ⟨?_, rfl, rfl, fun dest => ⟨rfl, rfl, rfl, rfl⟩⟩
  intro T inst acc dest offset h
  have hw := scalar_wf acc h
  exact ⟨fun x i hx => extract_val acc hw dest offset x i hx,
    fun j hj => extract_null acc dest offset j hj,
    extract_ret acc dest offset⟩

/-- Witness for C6: the general extract characterization applied to the
Scenario A accumulator at offset 0. -/
theorem claim_C6_extract_values_witness :
    (∀ x i, (x, i) ∈ ((SetAccumulator.empty Int).addValues
        [some 5, none, some 3, some 5, none]).uniqueValues →
      ((((SetAccumulator.empty Int).addValues
        [some 5, none, some 3, some 5, none]).extractValues
        (fun _ => Cell.val 0) 0).1 (0 + i) = Cell.val x)) ∧
    (∀ j, ((SetAccumulator.empty Int).addValues
        [some 5, none, some 3, some 5, none]).nullIndex = some j →
      ((((SetAccumulator.empty Int).addValues
        [some 5, none, some 3, some 5, none]).extractValues
        (fun _ => Cell.val 0) 0).1 (0 + j) = Cell.null)) ∧
    ((((SetAccumulator.empty Int).addValues
        [some 5, none, some 3, some 5, none]).extractValues
        (fun _ => Cell.val 0) 0).2 =
      ((SetAccumulator.empty Int).addValues
        [some 5, none, some 3, some 5, none]).size) :=
  claim_C6_extract_values.1 Int
    ((SetAccumulator.empty Int).addValues
      [some 5, none, some 3, some 5, none])
    (fun _ => Cell.val 0) 0
    (ReachS.add _ none (ReachS.add _ (some 5) (ReachS.add _ (some 3)
      (ReachS.add _ none (ReachS.add _ (some 5) ReachS.empty)))))

/-- C7: for every string accumulator state reachable by addValue, addValues
and successful deserialize calls, the running stringSetBytes counter equals
the exact byte length serialize produces (header plus, per unique string,
index field, length field and the bytes), and the length serialize
publishes for its output StringView is exactly stringSetBytes. -/
theorem claim_C7_string_bytes (a : StringViewSetAccumulator)
    (h : ReachStr a) :
    bytesLen (a.serialize).1 = a.stringSetBytes ∧
    (a.serialize).2 = a.stringSetBytes ∧
    a.stringSetBytes = kSizeOfVector + kSizeOfSize +
      (a.base.uniqueValues.map
        (fun p => 2 * kSizeOfVector + p.1.content.length)).sum :=
  ⟨strSerialize_len a (reachStr_acct a h), rfl, (reachStr_acct a h).2.1⟩

/-- Witness for C7: a string accumulator holding one 13-byte (non-inline)
string accounts for exactly its serialized bytes. -/
theorem claim_C7_string_bytes_witness :
    bytesLen ((StringViewSetAccumulator.empty.addValue
      (some [1, 2, 3, 4, 5, 6, 7, 8, 9, 10, 11, 12, 13])).serialize).1 =
      (StringViewSetAccumulator.empty.addValue
        (some [1, 2, 3, 4, 5, 6, 7, 8, 9, 10, 11, 12,
          13])).stringSetBytes ∧
    ((StringViewSetAccumulator.empty.addValue
      (some [1, 2, 3, 4, 5, 6, 7, 8, 9, 10, 11, 12, 13])).serialize).2 =
      (StringViewSetAccumulator.empty.addValue
        (some [1, 2, 3, 4, 5, 6, 7, 8, 9, 10, 11, 12,
          13])).stringSetBytes ∧
    (StringViewSetAccumulator.empty.addValue
      (some [1, 2, 3, 4, 5, 6, 7, 8, 9, 10, 11, 12, 13])).stringSetBytes =
      kSizeOfVector + kSizeOfSize +
        ((StringViewSetAccumulator.empty.addValue
          (some [1, 2, 3, 4, 5, 6, 7, 8, 9, 10, 11, 12,
            13])).base.uniqueValues.map
          (fun p => 2 * kSizeOfVector + p.1.content.length)).sum :=
  claim_C7_string_bytes
    (StringViewSetAccumulator.empty.addValue
      (some [1, 2, 3, 4, 5, 6, 7, 8, 9, 10, 11, 12, 13]))
    (ReachStr.add _ _ ReachStr.empty)

/-- C8: string deserialize reads the null index and the declared count,
consumes [ordinal][length][bytes] tuples until the consumed bytes reach the
serialized length regardless of the declared count, copies every decoded
string into the string store (no key references the transient input) and
inserts it at its recorded ordinal, and uses the count only as a post-hoc
consistency check: the same tuple parse succeeds for any declared count,
and the result stands or falls by the final count-vs-map-size check. -/
theorem claim_C8_string_deserialize (nf : Int) (cnt : Nat)
    (ts : List (Int × List Nat)) (hnd : (ts.map Prod.snd).Nodup) :
    (cnt = ts.length →
      ∃ a2, StringViewSetAccumulator.empty.deserialize
          (Tok.i32 nf :: Tok.usize cnt :: tupleToks ts)
          (kSizeOfVector + kSizeOfSize + tupleBytes ts) = some a2 ∧
        contentPairs a2 = ts.map (fun t => (t.2, t.1)) ∧
        a2.base.nullIndex = (if nf = kNoNullIndex then none else some nf) ∧
        ∀ p ∈ a2.base.uniqueValues, StoredOK a2.strings p.1) ∧
    (cnt ≠ ts.length →
      StringViewSetAccumulator.empty.deserialize
          (Tok.i32 nf :: Tok.usize cnt :: tupleToks ts)
          (kSizeOfVector + kSizeOfSize + tupleBytes ts) = none) := by
  have hd : StringViewSetAccumulator.empty.base.deserializeNullIndex nf =
      some ⟨(if nf = kNoNullIndex then none else some nf), []⟩ := by
    by_cases hv : nf = kNoNullIndex <;>
      simp [SetAccumulator.deserializeNullIndex,
        StringViewSetAccumulator.empty, SetAccumulator.empty, hv]
  have hbuild := strRead_tuples_build ts
    ⟨⟨(if nf = kNoNullIndex then none else some nf), []⟩, [],
      kSizeOfVector + kSizeOfSize⟩
    (kSizeOfVector + kSizeOfSize)
    (kSizeOfVector + kSizeOfSize + tupleBytes ts) rfl (by simpa using hnd)
  obtain ⟨hnull2, hcont2, hlen2, hstored2⟩ := insertAll_spec ts
    ⟨⟨(if nf = kNoNullIndex then none else some nf), []⟩, [],
      kSizeOfVector + kSizeOfSize⟩
  have hmain : StringViewSetAccumulator.empty.deserialize
      (Tok.i32 nf :: Tok.usize cnt :: tupleToks ts)
      (kSizeOfVector + kSizeOfSize + tupleBytes ts) =
      (if cnt = (insertAll
          ⟨⟨(if nf = kNoNullIndex then none else some nf), []⟩, [],
            kSizeOfVector + kSizeOfSize⟩ ts).base.uniqueValues.length
       then some (insertAll
          ⟨⟨(if nf = kNoNullIndex then none else some nf), []⟩, [],
            kSizeOfVector + kSizeOfSize⟩ ts)
       else none) := by
    unfold StringViewSetAccumulator.deserialize
    simp only []
    rw [hd]
    show (do
      let a2 ← strReadTuples
        ⟨⟨(if nf = kNoNullIndex then none else some nf), []⟩, [],
          kSizeOfVector + kSizeOfSize⟩ (tupleToks ts)
        (kSizeOfVector + kSizeOfSize)
        (kSizeOfVector + kSizeOfSize + tupleBytes ts)
      if cnt = a2.base.uniqueValues.length then some a2 else none) = _
    rw [hbuild, bind_some_reduce]
  refine ⟨?_, ?_⟩
  · intro hc
    refine ⟨insertAll
      ⟨⟨(if nf = kNoNullIndex then none else some nf), []⟩, [],
        kSizeOfVector + kSizeOfSize⟩ ts, ?_, ?_, ?_, ?_⟩
    · rw [hmain, if_pos (by rw [hlen2]; simpa using hc)]
    · rw [hcont2]
      rfl
    · rw [hnull2]
    · exact hstored2 (fun p hp => absurd hp (by simp))
  · intro hc
    rw [hmain, if_neg (by rw [hlen2]; simpa using hc)]

/-- Witness for C8: with payload [(0, [1]), (1, [2])] the declared count 2
deserializes successfully into the two strings at their ordinals. -/
theorem claim_C8_string_deserialize_witness :
    ((2 : Nat) = [((0 : Int), [(1 : Nat)]), (1, [2])].length →
      ∃ a2, StringViewSetAccumulator.empty.deserialize
          (Tok.i32 kNoNullIndex :: Tok.usize 2 ::
            tupleToks [(0, [1]), (1, [2])])
          (kSizeOfVector + kSizeOfSize +
            tupleBytes [(0, [1]), (1, [2])]) = some a2 ∧
        contentPairs a2 = [([(1 : Nat)], (0 : Int)), ([2], 1)] ∧
        a2.base.nullIndex = (if kNoNullIndex = kNoNullIndex then none
          else some kNoNullIndex) ∧
        ∀ p ∈ a2.base.uniqueValues, StoredOK a2.strings p.1) ∧
    ((2 : Nat) ≠ [((0 : Int), [(1 : Nat)]), (1, [2])].length →
      StringViewSetAccumulator.empty.deserialize
          (Tok.i32 kNoNullIndex :: Tok.usize 2 ::
            tupleToks [(0, [1]), (1, [2])])
          (kSizeOfVector + kSizeOfSize +
            tupleBytes [(0, [1]), (1, [2])]) = none) :=
  claim_C8_string_deserialize kNoNullIndex 2 [(0, [1]), (1, [2])]
    (by decide)

/-- C9: the corruption checks abort instead of recovering: in all three
categories deserialize returns none when the accumulator's null index is
already set; string and complex deserialize succeed only when the declared
count equals the rebuilt map's size; and the bounds-checked serialization
stream refuses any write past its allocated size. -/
theorem claim_C9_fail_fast :
    (∀ (T : Type) [inst : DecidableEq T] (acc : SetAccumulator T)
      (buf : ScalarBuf T), acc.nullIndex.isSome →
      acc.deserialize buf = none) ∧
    (∀ (a : StringViewSetAccumulator) (toks : List Tok) (size : Nat),
      a.base.nullIndex.isSome → a.deserialize toks size = none) ∧
    (∀ (a : ComplexTypeSetAccumulator) (toks : List Tok) (size : Nat),
      a.base.nullIndex.isSome → a.deserialize toks size = none) ∧
    (∀ (a a2 : StringViewSetAccumulator) (nf : Int) (numValues : Nat)
      (rest : List Tok) (size : Nat),
      a.deserialize (Tok.i32 nf :: Tok.usize numValues :: rest) size =
        some a2 → numValues = a2.base.uniqueValues.length) ∧
    (∀ (a a2 : ComplexTypeSetAccumulator) (nf : Int) (numValues : Nat)
      (rest : List Tok) (size : Nat),
      a.deserialize (Tok.i32 nf :: Tok.usize numValues :: rest) size =
        some a2 → numValues = a2.base.uniqueValues.length) ∧
    (∀ (s : SerializationStream) (t : Tok),
      s.totalSize < s.offset + tokSize t → s.append t = none) := by
  have hnone : ∀ (T : Type) [inst : DecidableEq T]
      (acc : SetAccumulator T) (v : Int), acc.nullIndex.isSome →
      acc.deserializeNullIndex v = none := by
    intro T inst acc v hs
    unfold SetAccumulator.deserializeNullIndex
    rw [if_pos hs]
  refine ⟨?_, ?_, ?_, ?_, ?_, ?_⟩
  · intro T inst acc buf hs
    unfold SetAccumulator.deserialize
    rw [hnone T acc buf.nullField hs]
    rfl
  · intro a toks size hs
    unfold StringViewSetAccumulator.deserialize
    cases toks with
    | nil => rfl
    | cons t1 rest1 =>
      cases t1 with
      | i32 nf =>
        cases rest1 with
        | nil => rfl
        | cons t2 rest2 =>
          cases t2 with
          | usize numValues =>
              simp only []
              rw [hnone SView a.base nf hs]
              rfl
          | i32 v => rfl
          | u64 v => rfl
          | raw bs => rfl
      | usize v => rfl
      | u64 v => rfl
      | raw bs => rfl
  · intro a toks size hs
    unfold ComplexTypeSetAccumulator.deserialize
    cases toks with
    | nil => rfl
    | cons t1 rest1 =>
      cases t1 with
      | i32 nf =>
        cases rest1 with
        | nil => rfl
        | cons t2 rest2 =>
          cases t2 with
          | usize numValues =>
              simp only []
              rw [hnone Entry a.base nf hs]
              rfl
          | i32 v => rfl
          | u64 v => rfl
          | raw bs => rfl
      | usize v => rfl
      | u64 v => rfl
      | raw bs => rfl
  · intro a a2 nf numValues rest size h
    unfold StringViewSetAccumulator.deserialize at h
    simp only [] at h
    cases hd : a.base.deserializeNullIndex nf with
    | none => rw [hd] at h; exact Option.noConfusion h
    | some base1 =>
        rw [hd, bind_some_reduce] at h
        cases hr : strReadTuples { a with base := base1 } rest
            (kSizeOfVector + kSizeOfSize) size with
        | none => rw [hr] at h; exact Option.noConfusion h
        | some a3 =>
            rw [hr, bind_some_reduce] at h
            by_cases hc : numValues = a3.base.uniqueValues.length
            · rw [if_pos hc] at h
              rw [← Option.some.inj h]
              exact hc
            · rw [if_neg hc] at h
              exact Option.noConfusion h
  · intro a a2 nf numValues rest size h
    unfold ComplexTypeSetAccumulator.deserialize at h
    simp only [] at h
    cases hd : a.base.deserializeNullIndex nf with
    | none => rw [hd] at h; exact Option.noConfusion h
    | some base1 =>
        rw [hd, bind_some_reduce] at h
        cases hr : cmplxReadTuples { a with base := base1 } rest
            (kSizeOfVector + kSizeOfSize) size with
        | none => rw [hr] at h; exact Option.noConfusion h
        | some a3 =>
            rw [hr, bind_some_reduce] at h
            by_cases hc : numValues = a3.base.uniqueValues.length
            · rw [if_pos hc] at h
              rw [← Option.some.inj h]
              exact hc
            · rw [if_neg hc] at h
              exact Option.noConfusion h
  · intro s t h
    exact sstream_append_overflow s t (by omega)

/-- Witness for C9: a scalar accumulator with its null index already set
rejects any buffer; a string accumulator in the same state rejects any
stream; a successful empty-payload string deserialize has matching count 0;
and a full stream rejects a 4-byte write. -/
theorem claim_C9_fail_fast_witness :
    ((⟨some 0, []⟩ : SetAccumulator Int).deserialize
      ⟨kNoNullIndex, 0, fun _ => none, 12⟩ = none) ∧
    ((⟨⟨some 0, []⟩, [], 12⟩ : StringViewSetAccumulator).deserialize
      [Tok.i32 kNoNullIndex, Tok.usize 0] 12 = none) ∧
    ((⟨⟨some 0, []⟩, [], 12⟩ : ComplexTypeSetAccumulator).deserialize
      [Tok.i32 kNoNullIndex, Tok.usize 0] 12 = none) ∧
    ((0 : Nat) = (StringViewSetAccumulator.empty.base.uniqueValues.length)) ∧
    ((0 : Nat) = (ComplexTypeSetAccumulator.empty.base.uniqueValues.length)) ∧
    ((⟨[], 12, 12⟩ : SerializationStream).append (Tok.i32 0) = none) := by
  refine ⟨?_, ?_, ?_, ?_, ?_, ?_⟩
  · exact claim_C9_fail_fast.1 Int ⟨some 0, []⟩
      ⟨kNoNullIndex, 0, fun _ => none, 12⟩ (by decide)
  · exact claim_C9_fail_fast.2.1 ⟨⟨some 0, []⟩, [], 12⟩
      [Tok.i32 kNoNullIndex, Tok.usize 0] 12 (by decide)
  · exact claim_C9_fail_fast.2.2.1 ⟨⟨some 0, []⟩, [], 12⟩
      [Tok.i32 kNoNullIndex, Tok.usize 0] 12 (by decide)
  · exact claim_C9_fail_fast.2.2.2.1 StringViewSetAccumulator.empty
      StringViewSetAccumulator.empty kNoNullIndex 0 [] 12 rfl
  · exact claim_C9_fail_fast.2.2.2.2.1 ComplexTypeSetAccumulator.empty
      ComplexTypeSetAccumulator.empty kNoNullIndex 0 [] 12 rfl
  · exact claim_C9_fail_fast.2.2.2.2.2 ⟨[], 12, 12⟩ (Tok.i32 0) (by decide)

/-- C10: for every complex accumulator state reachable by addValue,
addValues and successful deserialize calls, totalSize is exactly the header
size plus, per entry, the index field, length field, hash field and the
entry's byte size; consequently every bounds check inside complex serialize
passes (serialize returns some) and the emitted tokens fill the allocated
buffer exactly: their byte length, and the stream's final write offset, both
equal totalSize. -/
theorem claim_C10_complex_total_size (hashFn : List Nat → Nat)
    (a : ComplexTypeSetAccumulator) (h : ReachC hashFn a) :
    a.totalSize = kSizeOfVector + kSizeOfSize +
      (a.base.uniqueValues.map
        (fun p => 2 * kSizeOfVector + kSizeOfHash + p.1.size)).sum ∧
    ∃ toks, a.serialize = some (toks, a.totalSize) ∧
      bytesLen toks = a.totalSize := by
  have hacct := reachC_acct hashFn a h
  refine ⟨hacct.2.1, _, cSerialize_ok a hacct, ?_⟩
  rw [bytesLen_cons, bytesLen_cons, bytesLen_ctupleToks,
    ctupleBytes_of_map a hacct, hacct.2.1]
  simp [tokSize, kSizeOfVector, kSizeOfSize]
  omega

/-- Witness for C10: the accumulator holding the single byte run [7]
accounts 12 + 16 + 1 bytes and serializes to exactly that many. -/
theorem claim_C10_complex_total_size_witness :
    (ComplexTypeSetAccumulator.empty.addValue (fun _ => 0)
      (some [7])).totalSize = kSizeOfVector + kSizeOfSize +
      (((ComplexTypeSetAccumulator.empty.addValue (fun _ => 0)
        (some [7])).base.uniqueValues.map
        (fun p => 2 * kSizeOfVector + kSizeOfHash + p.1.size)).sum) ∧
    ∃ toks, (ComplexTypeSetAccumulator.empty.addValue (fun _ => 0)
        (some [7])).serialize = some (toks,
          (ComplexTypeSetAccumulator.empty.addValue (fun _ => 0)
            (some [7])).totalSize) ∧
      bytesLen toks = (ComplexTypeSetAccumulator.empty.addValue (fun _ => 0)
        (some [7])).totalSize :=
  claim_C10_complex_total_size (fun _ => 0)
    (ComplexTypeSetAccumulator.empty.addValue (fun _ => 0) (some [7]))
    (ReachC.add _ (some [7]) ReachC.empty)

end SetAgg
